import Mathlib

/-!
Verification development for the radix-router crate (`src/src/route.rs`,
`src/src/router.rs`, `src/src/ffi.rs`).

The Rust sources are shallowly embedded: strings are Lean `String`s
(manipulated through their `List Char` data, which coincides with Rust's
byte indexing because the characters that the parser inspects, `:`, `*`
and `/`, are one-byte ASCII); `HashMap` is modelled by association lists
read through a first-match lookup (Rust's `HashMap` is observed only via
`get`/`insert`/`entry`/`remove`, never via iteration order);
`Vec::sort_by` is modelled by `List.insertionSort` on the non-strict
comparator (both are stable sorts of the same total preorder);
Rust's `Result` is modelled by returning the mutated state together with
a success flag, because `&mut self` methods keep their partial mutations
when they return `Err`.

The C radix tree behind `ffi.rs` is not part of `src/`; it is modelled
from the specification (see `RadixTreeRaw` below).
-/

/-! ### String helpers (ASCII restriction of the Rust string operations) -/

/-- ASCII restriction of Rust's `char::to_lowercase` (the hosts and
methods handled by the router are ASCII). -/
def charLower (c : Char) : Char :=
  if 'A' ≤ c ∧ c ≤ 'Z' then Char.ofNat (c.toNat + 32) else c

/-- ASCII restriction of Rust's `char::to_uppercase`. -/
def charUpper (c : Char) : Char :=
  if 'a' ≤ c ∧ c ≤ 'z' then Char.ofNat (c.toNat - 32) else c

/-- Rust `str::to_lowercase`, restricted to ASCII. -/
def strLower (s : String) : String := ⟨s.data.map charLower⟩

/-- Rust `str::to_uppercase`, restricted to ASCII. -/
def strUpper (s : String) : String := ⟨s.data.map charUpper⟩

/-- Rust `str::find(c)`: index of the first occurrence of a character. -/
def strFindChar (s : String) (c : Char) : Option Nat :=
  s.data.findIdx? (fun d => d = c)

/-- Rust slice `&s[..n]` at a character boundary. -/
def strTake (s : String) (n : Nat) : String := ⟨s.data.take n⟩

/-- Rust slice `&s[n..]` at a character boundary. -/
def strDrop (s : String) (n : Nat) : String := ⟨s.data.drop n⟩

/-- Rust `str::starts_with(c)` for a character. -/
def strStartsWithChar (s : String) (c : Char) : Bool :=
  match s.data with
  | [] => false
  | d :: _ => d = c

/-- Rust `str::ends_with(t)` for a string suffix. -/
def strEndsWith (s t : String) : Bool := t.data.isSuffixOf s.data

/-- Rust `str::starts_with(t)` / byte-prefix test used by the tree. -/
def strIsPrefixOf (s t : String) : Bool := s.data.isPrefixOf t.data

/-- Rust `str::split('/')` (keeps empty fragments, like `String::splitOn`). -/
def splitSlashAux : List Char → List Char → List String
  | [], acc => [⟨acc.reverse⟩]
  | c :: rest, acc =>
    if c = '/' then ⟨acc.reverse⟩ :: splitSlashAux rest []
    else splitSlashAux rest (c :: acc)

/-- Split a path on `/`, as `path.split('/')` does in `generate_pattern`. -/
def splitSlash (s : String) : List String := splitSlashAux s.data []

/-! ### String-keyed map for `matched` (Rust `HashMap<String, String>`)

Only `insert` (overwriting) and `get` are used on `matched`; a cons-based
association list whose lookup returns the most recent insertion models
this faithfully. -/

abbrev SMap := List (String × String)

/-- `HashMap::insert`: the new binding shadows any previous one. -/
def SMap.insert (m : SMap) (k v : String) : SMap := (k, v) :: m

/-- `HashMap::get`. -/
def SMap.get (m : SMap) (k : String) : Option String :=
  (m.find? (fun e => e.1 = k)).map (fun e => e.2)

/-- Request variables, observed only through `HashMap::get`. -/
abbrev VarsMap := String → Option String

/-! ### `route.rs`: HTTP methods -/

-- `RadixHttpMethod` bit flags (`route.rs`), as a `u16` bitset value.
namespace RadixHttpMethod

def GET : Nat := 1 <<< 0
def POST : Nat := 1 <<< 1
def PUT : Nat := 1 <<< 2
def DELETE : Nat := 1 <<< 3
def PATCH : Nat := 1 <<< 4
def HEAD : Nat := 1 <<< 5
def OPTIONS : Nat := 1 <<< 6
def CONNECT : Nat := 1 <<< 7
def TRACE : Nat := 1 <<< 8
def PURGE : Nat := 1 <<< 9

/-- `RadixHttpMethod::from_str` (`route.rs`): case-insensitive parse. -/
def from_str (s : String) : Option Nat :=
  let u := strUpper s
  if u = "GET" then some GET
  else if u = "POST" then some POST
  else if u = "PUT" then some PUT
  else if u = "DELETE" then some DELETE
  else if u = "PATCH" then some PATCH
  else if u = "HEAD" then some HEAD
  else if u = "OPTIONS" then some OPTIONS
  else if u = "CONNECT" then some CONNECT
  else if u = "TRACE" then some TRACE
  else if u = "PURGE" then some PURGE
  else none

/-- `bitflags` `contains`: `self & m == m`. -/
def contains (self m : Nat) : Bool := self &&& m = m

/-- `bitflags` `is_empty`: no bit set. -/
def is_empty (self : Nat) : Bool := self = 0

end RadixHttpMethod

/-! ### `route.rs`: host patterns -/

/-- `HostPattern` (`route.rs`). -/
structure HostPattern where
  is_wildcard : Bool
  pattern : String
deriving DecidableEq

/-- `HostPattern::new` (`route.rs`): a leading `*` marks a wildcard and is
stripped; the remainder (including the dot) is stored lowercased. -/
def HostPattern.new (p : String) : HostPattern :=
  if strStartsWithChar p '*' then
    { is_wildcard := true, pattern := strLower (strDrop p 1) }
  else
    { is_wildcard := false, pattern := strLower p }

/-- `HostPattern::matches` (`route.rs`). -/
def HostPattern.matches (self : HostPattern) (host : String) : Bool :=
  let host := strLower host
  if self.is_wildcard then strEndsWith host self.pattern
  else host = self.pattern

/-! ### `route.rs`: variable expressions -/

/-- Numeric value of a digit string (digits already validated). -/
def natOfDigits (cs : List Char) : Nat :=
  cs.foldl (fun n c => n * 10 + (c.toNat - 48)) 0

/-- Modelled from the spec: `Gt`/`Lt` parse both operands as
floating-point. `f64` parsing and rounding are not representable
exactly; the model parses plain decimal literals (optional sign, digits,
optional fraction) into `Rat` and rejects everything else. The claims
proved below depend only on the success/failure structure of the parse,
not on the parsed value. -/
def parseNum (s : String) : Option Rat :=
  let digit : Char → Bool := fun c => '0' ≤ c ∧ c ≤ '9'
  let go : List Char → Option Rat := fun cs =>
    match cs.span digit with
    | (ip, []) => if ip = [] then none else some (natOfDigits ip : Rat)
    | (ip, '.' :: fp) =>
      if ip = [] ∨ fp = [] ∨ ¬ fp.all digit then none
      else some ((natOfDigits ip : Rat) + (natOfDigits fp : Rat) / ((10 : Rat) ^ fp.length))
    | _ => none
  match s.data with
  | '-' :: rest => (go rest).map (fun q => -q)
  | cs => go cs

/-- `Expr` (`route.rs`). The compiled `regex::Regex` stored by the
`Regex` variant (an external-crate value) is represented by its matching
predicate; `In` is rendered as the constructor `mem`. -/
inductive Expr where
  | eq (key value : String)
  | neq (key value : String)
  | gt (key value : String)
  | lt (key value : String)
  | mem (key : String) (values : List String)
  | regex (key : String) (pattern : String → Bool)

/-- `Expr::eval` (`route.rs`). -/
def Expr.eval (e : Expr) (vars : VarsMap) : Bool :=
  match e with
  | .eq key value => ((vars key).map (fun v => decide (v = value))).getD false
  | .neq key value => ((vars key).map (fun v => decide (v ≠ value))).getD true
  | .mem key values => ((vars key).map (fun v => values.contains v)).getD false
  | .regex key pattern => ((vars key).map (fun v => pattern v)).getD false
  | .gt key value =>
    ((vars key).bind (fun v =>
      (parseNum v).bind (fun vn =>
        (parseNum value).map (fun val => decide (vn > val))))).getD false
  | .lt key value =>
    ((vars key).bind (fun v =>
      (parseNum v).bind (fun vn =>
        (parseNum value).map (fun val => decide (vn < val))))).getD false

/-! ### `route.rs`: route descriptors, options, results -/

/-- `serde_json::Value` is an opaque payload for the router; an opaque
string stands in for it. -/
abbrev JsonValue := String

/-- `RadixMatchOpts` (`route.rs`). -/
structure RadixMatchOpts where
  method : Option String
  host : Option String
  remote_addr : Option String
  vars : Option VarsMap

/-- `RadixMatchOpts::default()`. -/
def RadixMatchOpts.default : RadixMatchOpts :=
  { method := none, host := none, remote_addr := none, vars := none }

/-- `FilterFn` (`route.rs`). -/
abbrev FilterFn := VarsMap → RadixMatchOpts → Bool

/-- `RadixNode` (`route.rs`): the caller-facing route descriptor. -/
structure RadixNode where
  id : String
  paths : List String
  methods : Option Nat
  hosts : Option (List String)
  remote_addrs : Option (List String)
  vars : Option (List Expr)
  filter_fn : Option FilterFn
  priority : Int
  metadata : JsonValue

/-- The value that `RadixRouter::match_route` actually constructs at
`router.rs:190` and `router.rs:221`: only `metadata` and `matched`.
(The `MatchResult` struct declared in `route.rs` additionally declares an
`id: String` field which those constructions never populate.) -/
structure MatchResult where
  metadata : JsonValue
  matched : SMap
deriving DecidableEq

/-- `PathOp` (`route.rs`). -/
inductive PathOp where
  | Equal
  | PrefixMatch
deriving DecidableEq

/-! ### `router.rs`: compiled patterns -/

/-- One fragment of the regex built by `generate_pattern`: a
regex-escaped literal (matching itself), `([^/]+)`, or `(.*)`. -/
inductive PatSeg where
  | lit (s : String)
  | param
  | wild
deriving DecidableEq

/-- `RadixRouter::generate_pattern` (`router.rs`): split on `/`; `:name`
compiles to `([^/]+)` recording `name`; a `*`-led segment compiles to
`(.*)` recording its remainder, or the synthetic name `":ext"` for a
bare `*`; anything else is escaped literally. The resulting regex
`^...$` is always well-formed, so the source's `Result` cannot be `Err`.
This is the per-segment body of `generate_pattern`'s loop. -/
def generate_pattern_step (acc : List PatSeg × List String) (part : String) :
    List PatSeg × List String :=
  if part = "" then (acc.1 ++ [PatSeg.lit ""], acc.2)
  else if strStartsWithChar part ':' then
    (acc.1 ++ [PatSeg.param], acc.2 ++ [strDrop part 1])
  else if strStartsWithChar part '*' then
    (acc.1 ++ [PatSeg.wild],
     acc.2 ++ [if 1 < part.length then strDrop part 1 else ":ext"])
  else (acc.1 ++ [PatSeg.lit part], acc.2)

/-- The loop of `generate_pattern`, folding `generate_pattern_step` over
the slash-separated parts. -/
def generate_pattern (path : String) : List PatSeg × List String :=
  (splitSlash path).foldl generate_pattern_step ([], [])

/-- The anchored regex `^f0/f1/.../fn$`: the fragments joined by a
literal `/`. -/
def patTokens : List PatSeg → List PatSeg
  | [] => []
  | [s] => [s]
  | s :: rest => s :: PatSeg.lit "/" :: patTokens rest

/-- Try `f` at `n, n-1, ..., 0`, returning the first `some`. -/
def firstSomeDesc {α : Type} (f : Nat → Option α) : Nat → Option α
  | 0 => f 0
  | k+1 =>
    match f (k+1) with
    | some x => some x
    | none => firstSomeDesc f k

/-- `Regex::captures` of the anchored pattern against the whole input:
the regex crate's Perl-consistent semantics make each greedy group
prefer the longest capture, backtracking from the left. Returns the
capture list (group 0 is the whole input by anchoring and is omitted). -/
def tmatch : List PatSeg → List Char → Option (List (List Char))
  | [], cs => if cs = [] then some [] else none
  | PatSeg.lit l :: ts, cs =>
    if l.data.isPrefixOf cs then tmatch ts (cs.drop l.data.length) else none
  | PatSeg.param :: ts, cs =>
    firstSomeDesc
      (fun k =>
        if k = 0 ∨ (cs.take k).contains '/' then none
        else (tmatch ts (cs.drop k)).map (fun caps => cs.take k :: caps))
      cs.length
  | PatSeg.wild :: ts, cs =>
    firstSomeDesc
      (fun k => (tmatch ts (cs.drop k)).map (fun caps => cs.take k :: caps))
      cs.length

/-! ### `route.rs`: processed route records -/

/-- `RouteOpts` (`route.rs`): the processed per-(route, path) record.
The `Arc` around the compiled pattern is semantically transparent. -/
structure RouteOpts where
  id : String
  path : String
  path_org : String
  path_op : PathOp
  has_param : Bool
  methods : Nat
  hosts : Option (List HostPattern)
  vars : Option (List Expr)
  filter_fn : Option FilterFn
  priority : Int
  metadata : JsonValue
  compiled_pattern : Option (List PatSeg × List String)

/-- `RouteOpts::cmp_priority` (`route.rs`): descending priority, ties by
descending original-path length (`other.cmp(self)` twice). -/
def RouteOpts.cmp_priority (a b : RouteOpts) : Ordering :=
  if b.priority < a.priority then Ordering.lt
  else if a.priority < b.priority then Ordering.gt
  else if b.path_org.length < a.path_org.length then Ordering.lt
  else if a.path_org.length < b.path_org.length then Ordering.gt
  else Ordering.eq

/-! ### `ffi.rs` / spec §4.2: the radix tree

Modelled from the spec: the compressed prefix tree is C code wrapped by
`ffi.rs` and is not under `src/`. Spec §4.2 describes it as a map from
byte-string keys to integer payloads with exact `find`, `insert`
(returning false when the key already exists), `remove`, a
longest-prefix `seek`, and an upward walk whose successive `up(path)`
calls yield the payloads of nodes whose keys are still proper prefixes
of `path`, in strictly decreasing key length. An association list of
`(key, payload)` pairs represents the node set. -/
abbrev RadixTreeRaw := List (String × Nat)

/-- Modelled from the spec: exact key lookup (`radix_tree_find`). -/
def RadixTreeRaw.find (t : RadixTreeRaw) (k : String) : Option Nat :=
  (t.find? (fun e => e.1 = k)).map (fun e => e.2)

/-- Modelled from the spec: `radix_tree_insert`, false if the key exists. -/
def RadixTreeRaw.insert (t : RadixTreeRaw) (k : String) (idx : Nat) :
    Bool × RadixTreeRaw :=
  if t.any (fun e => e.1 = k) then (false, t) else (true, t ++ [(k, idx)])

/-- Modelled from the spec: `radix_tree_remove`. -/
def RadixTreeRaw.remove (t : RadixTreeRaw) (k : String) : RadixTreeRaw :=
  t.filter (fun e => e.1 ≠ k)

/-- Modelled from the spec: `iterator.search` reports a hit iff some node
key is a prefix of the query path (spec §4.2, longest-prefix seek). -/
def RadixTreeRaw.seekHit (t : RadixTreeRaw) (path : String) : Bool :=
  t.any (fun e => strIsPrefixOf e.1 path)

/-- Modelled from the spec: the payload sequence produced by repeated
`iterator.up(path)` calls after a successful seek — the payloads of all
nodes whose keys are proper prefixes of `path`, deepest first (spec
§4.2 and §4.4 phase 2). Distinct keys that are prefixes of one path have
distinct lengths, so the length-descending order is unambiguous. -/
def RadixTreeRaw.upPayloads (t : RadixTreeRaw) (path : String) : List Nat :=
  ((t.filter (fun e => strIsPrefixOf e.1 path && e.1 ≠ path)).insertionSort
      (fun a b => b.1.length ≤ a.1.length)).map (fun e => e.2)

/-! ### Association-list stores (`HashMap<String, Vec<_>>`, `HashMap<usize, Vec<_>>`) -/

/-- `HashMap::get` on an association-list store. -/
def alGet {κ v : Type} [DecidableEq κ] (m : List (κ × v)) (k : κ) : Option v :=
  (m.find? (fun e => e.1 = k)).map (fun e => e.2)

/-- `HashMap::insert` / write-through of `entry(..).or_default()`. The
store is only ever observed through `alGet`, so the binding for `k` is
replaced by consing the new one and dropping the old. -/
def alSet {κ v : Type} [DecidableEq κ] (m : List (κ × v)) (k : κ) (val : v) :
    List (κ × v) :=
  (k, val) :: m.filter (fun e => e.1 ≠ k)

/-- `HashMap::remove`. -/
def alRemove {κ v : Type} [DecidableEq κ] (m : List (κ × v)) (k : κ) :
    List (κ × v) :=
  m.filter (fun e => e.1 ≠ k)

/-! ### `router.rs`: the router -/

/-- `RadixRouter` (`router.rs`). The `RwLock` only serialises mutation
and is semantically transparent in this sequential model. -/
structure RadixRouter where
  tree : RadixTreeRaw
  match_data : List (Nat × List RouteOpts)
  match_data_index : Nat
  hash_path : List (String × List RouteOpts)

namespace RadixRouter

/-- `RadixRouter::parse_path` (`router.rs`): first `:` wins, else first
`*` (with `has_param` false iff the `*` is the last character), else an
exact path. -/
def parse_path (path : String) : String × PathOp × Bool :=
  match strFindChar path ':' with
  | some pos => (strTake path pos, PathOp.PrefixMatch, true)
  | none =>
    match strFindChar path '*' with
    | some pos => (strTake path pos, PathOp.PrefixMatch, decide (pos ≠ path.length - 1))
    | none => (path, PathOp.Equal, false)

/-- `RadixRouter::process_route` (`router.rs`). -/
def process_route (path : String) (route : RadixNode) : RouteOpts :=
  let methods := route.methods.getD 0
  let hosts := route.hosts.map (fun hs => hs.map HostPattern.new)
  let p := parse_path path
  { id := route.id
    path := p.1
    path_org := path
    path_op := p.2.1
    has_param := p.2.2
    methods := methods
    hosts := hosts
    vars := route.vars
    filter_fn := route.filter_fn
    priority := route.priority
    metadata := route.metadata
    compiled_pattern := if p.2.2 then some (generate_pattern path) else none }

end RadixRouter

/-- The non-strict relation underlying `sort_by(cmp_priority)`: `a` may
precede `b` iff the comparator does not say `Greater`. -/
def rle (a b : RouteOpts) : Prop := a.cmp_priority b ≠ Ordering.gt

instance : DecidableRel rle := fun a b => by unfold rle; infer_instance

/-- `routes.sort_by(|a, b| a.cmp_priority(b))`: Rust's stable sort,
modelled by the (stable) insertion sort on `rle`. -/
def sortRoutes (l : List RouteOpts) : List RouteOpts := l.insertionSort rle

namespace RadixRouter

/-- The new-key tail of `RadixRouter::insert_route` (`router.rs:83-99`):
allocate the next index, store the singleton list, then insert the key
into the tree; a false tree insert is the `bail!`, which keeps the
mutations made before it. -/
def insert_route_new (r : RadixRouter) (route_opts : RouteOpts) :
    RadixRouter × Bool :=
  let idx := r.match_data_index + 1
  let r1 := { r with match_data_index := idx,
                     match_data := alSet r.match_data idx [route_opts] }
  let ins := RadixTreeRaw.insert r1.tree route_opts.path idx
  ({ r1 with tree := ins.2 }, ins.1)

/-- `RadixRouter::insert_route` (`router.rs`). The success flag models
the `Result`. -/
def insert_route (r : RadixRouter) (path : String) (route : RadixNode) :
    RadixRouter × Bool :=
  let route_opts := process_route path route
  if route_opts.path_op = PathOp.Equal then
    let routes := (alGet r.hash_path route_opts.path).getD []
    let h := alSet r.hash_path route_opts.path (sortRoutes (routes ++ [route_opts]))
    ({ r with hash_path := h }, true)
  else
    match RadixTreeRaw.find r.tree route_opts.path with
    | some idx =>
      match alGet r.match_data idx with
      | some routes =>
        let md := alSet r.match_data idx (sortRoutes (routes ++ [route_opts]))
        ({ r with match_data := md }, true)
      | none => insert_route_new r route_opts
    | none => insert_route_new r route_opts

/-- `RadixRouter::add_route` (`router.rs`): insert every path, the `?`
stopping at the first failure. -/
def add_route (r : RadixRouter) (route : RadixNode) : RadixRouter × Bool :=
  route.paths.foldl
    (fun acc path => if acc.2 then insert_route acc.1 path route else acc)
    (r, true)

/-- `RadixRouter::compare_param` (`router.rs`). Returns the pass flag and
the updated `matched` map. The source's check that capture group 0
equals the whole request path is implied by the `^...$` anchoring built
into `tmatch`. -/
def compare_param (req_path : String) (route : RouteOpts) (matched : SMap) :
    Bool × SMap :=
  if !route.has_param then (true, matched)
  else
    match route.compiled_pattern with
    | none => (true, matched)
    | some patnames =>
      if patnames.2.isEmpty then (true, matched)
      else
        match tmatch (patTokens patnames.1) req_path.data with
        | some caps =>
          (true, (patnames.2.zip caps).foldl
            (fun m nc => m.insert nc.1 ⟨nc.2⟩) matched)
        | none => (false, matched)

/-- `RadixRouter::match_route_opts` (`router.rs`): per-candidate
evaluation in source order (method, `_method`, host, parameters,
variable expressions, filter callback). -/
def match_route_opts (route : RouteOpts) (path : String) (opts : RadixMatchOpts)
    (matched : SMap) : Bool × SMap :=
  let methodOk : Bool :=
    if !(RadixHttpMethod.is_empty route.methods) then
      match opts.method with
      | some m =>
        match RadixHttpMethod.from_str m with
        | some mb => RadixHttpMethod.contains route.methods mb
        | none => false
      | none => true
    else true
  if !methodOk then (false, matched)
  else
    let matched :=
      match opts.method with
      | some m => matched.insert "_method" m
      | none => matched
    let hostStep : Bool × SMap :=
      match route.hosts with
      | some hosts =>
        match opts.host with
        | some host =>
          match hosts.find? (fun p => p.matches host) with
          | some pat =>
            (true, matched.insert "_host"
              (if pat.is_wildcard then "*" ++ pat.pattern else host))
          | none => (false, matched)
        | none => (false, matched)
      | none => (true, matched)
    if !hostStep.1 then (false, hostStep.2)
    else
      let pm := compare_param path route hostStep.2
      if !pm.1 then (false, pm.2)
      else
        let varsOk : Bool :=
          match route.vars with
          | some vars =>
            match opts.vars with
            | some req_vars => vars.all (fun e => e.eval req_vars)
            | none => false
          | none => true
        if !varsOk then (false, pm.2)
        else
          match route.filter_fn with
          | some f => (f ((opts.vars).getD (fun _ => none)) opts, pm.2)
          | none => (true, pm.2)

/-- One candidate-list loop of `match_route`: evaluate candidates in
stored order, returning the first success with its `matched` map. The
map is cleared after every failure, so each candidate starts from the
empty map. -/
def first_success (routes : List RouteOpts) (path : String)
    (opts : RadixMatchOpts) : Option (RouteOpts × SMap) :=
  match routes with
  | [] => none
  | route :: rest =>
    let res := match_route_opts route path opts []
    if res.1 then some (route, res.2) else first_success rest path opts

/-- `RadixRouter::match_route` (`router.rs`): lowercase the host, probe
`hash_path`, then walk the tree upward from the longest matching prefix,
flattening the per-index candidate lists in walk order. -/
def match_route (r : RadixRouter) (path : String) (opts : RadixMatchOpts) :
    Option MatchResult :=
  let normalized_opts :=
    match opts.host with
    | some host => { opts with host := some (strLower host) }
    | none => opts
  match first_success ((alGet r.hash_path path).getD []) path normalized_opts with
  | some rm => some { metadata := rm.1.metadata, matched := rm.2.insert "_path" path }
  | none =>
    if !(RadixTreeRaw.seekHit r.tree path) then none
    else
      match first_success
          (((RadixTreeRaw.upPayloads r.tree path).map
            (fun idx => (alGet r.match_data idx).getD [])).flatten)
          path normalized_opts with
      | some rm =>
        some { metadata := rm.1.metadata, matched := rm.2.insert "_path" rm.1.path_org }
      | none => none

/-- `RadixRouter::remove_route` (`router.rs`). The success flag models
the `Result`; a `bail!` returns the state unchanged. -/
def remove_route (r : RadixRouter) (path : String) (route : RadixNode) :
    RadixRouter × Bool :=
  let route_opts := process_route path route
  if route_opts.path_op = PathOp.Equal then
    match alGet r.hash_path route_opts.path with
    | some routes =>
      let kept := routes.filter (fun x => x.id ≠ route_opts.id)
      if kept.isEmpty then
        ({ r with hash_path := alRemove r.hash_path route_opts.path }, true)
      else ({ r with hash_path := alSet r.hash_path route_opts.path kept }, true)
    | none => (r, false)
  else
    match RadixTreeRaw.find r.tree route_opts.path with
    | some idx =>
      match alGet r.match_data idx with
      | some routes =>
        let kept := routes.filter (fun x => x.id ≠ route_opts.id)
        if kept.isEmpty then
          ({ r with match_data := alRemove r.match_data idx,
                    tree := RadixTreeRaw.remove r.tree route_opts.path }, true)
        else ({ r with match_data := alSet r.match_data idx kept }, true)
      | none => (r, false)
    | none => (r, false)

/-- `RadixRouter::delete_route` (`router.rs`): remove every path, the `?`
stopping at the first failure. -/
def delete_route (r : RadixRouter) (route : RadixNode) : RadixRouter × Bool :=
  route.paths.foldl
    (fun acc path => if acc.2 then remove_route acc.1 path route else acc)
    (r, true)

/-- `RadixRouter::update_route` (`router.rs`): delete then add. -/
def update_route (r : RadixRouter) (old_route new_route : RadixNode) :
    RadixRouter × Bool :=
  let d := delete_route r old_route
  if d.2 then add_route d.1 new_route else d

/-- The freshly constructed router inside `RadixRouter::new`. -/
def empty : RadixRouter :=
  { tree := [], match_data := [], match_data_index := 0, hash_path := [] }

/-- `RadixRouter::new` (`router.rs`): start empty and `add_route` each
given route, stopping at the first failure. -/
def new (routes : List RadixNode) : RadixRouter × Bool :=
  routes.foldl
    (fun acc route => if acc.2 then add_route acc.1 route else acc)
    (empty, true)

end RadixRouter

/-! ### Concrete instances used by counterexamples and witnesses -/

/-- A route descriptor with only id, paths, priority and metadata set. -/
def plainNode (id : String) (paths : List String) (pri : Int)
    (meta : JsonValue) : RadixNode :=
  { id := id, paths := paths, methods := none, hosts := none,
    remote_addrs := none, vars := none, filter_fn := none,
    priority := pri, metadata := meta }

/-! ### C8: variable-expression evaluation -/

/-- C8: `Gt`/`Lt` evaluate to false whenever either operand fails to
parse numerically, and a missing variable makes `Eq`/`Gt`/`Lt`/`In`/
`Regex` false and `Neq` true (`Expr::eval`, `route.rs`). -/
theorem c8_eval_nonnumeric_and_missing (key value : String) (vars : VarsMap) :
    ((∃ v, vars key = some v ∧ parseNum v = none) ∨ parseNum value = none →
      Expr.eval (Expr.gt key value) vars = false ∧
      Expr.eval (Expr.lt key value) vars = false)
    ∧ (vars key = none →
      Expr.eval (Expr.eq key value) vars = false ∧
      Expr.eval (Expr.gt key value) vars = false ∧
      Expr.eval (Expr.lt key value) vars = false ∧
      (∀ vals, Expr.eval (Expr.mem key vals) vars = false) ∧
      (∀ pat, Expr.eval (Expr.regex key pat) vars = false) ∧
      Expr.eval (Expr.neq key value) vars = true) := by
  constructor
  · rintro (⟨v, hv, hp⟩ | hp)
    · constructor <;> simp [Expr.eval, hv, hp]
    · rcases h : vars key with _ | v
      · constructor <;> simp [Expr.eval, h]
      · rcases h2 : parseNum v with _ | q
        · constructor <;> simp [Expr.eval, h, h2]
        · constructor <;> simp [Expr.eval, h, h2, hp]
  · intro h
    refine ⟨?_, ?_, ?_, ?_, ?_, ?_⟩ <;> simp [Expr.eval, h]

/-- The request variables used by the C8 witness. -/
def c8vars : VarsMap := fun k => if k = "rate" then some "fast" else none

/-- C8 witness: at concrete inputs, `Gt` on a non-numeric operand is
false and `Neq` on a missing variable is true. -/
theorem c8_witness :
    Expr.eval (Expr.gt "rate" "10") c8vars = false ∧
    Expr.eval (Expr.neq "other" "10") c8vars = true := by
  constructor
  · exact ((c8_eval_nonnumeric_and_missing "rate" "10" c8vars).1
      (Or.inl ⟨"fast", rfl, by decide⟩)).1
  · exact ((c8_eval_nonnumeric_and_missing "other" "10" c8vars).2 rfl).2.2.2.2.2

/-! ### C2: the method step with no request method -/

/-- The router used by the C2 counterexample: one route restricted to
GET. -/
def c2router : RadixRouter :=
  (RadixRouter.new
    [{ plainNode "1" ["/api/users"] 0 "users" with
        methods := some RadixHttpMethod.GET }]).1

/-- C2 counterexample: the claim says a candidate with a non-empty
method bitset is rejected when the request supplies no method; the code
matches such a request (`router.rs:243-253` only checks the method when
one is supplied). -/
theorem c2_counterexample :
    RadixRouter.match_route c2router "/api/users" RadixMatchOpts.default =
      some { metadata := "users", matched := [("_path", "/api/users")] } := by
  decide

/-- C2 (amended): when the bitset is non-empty, the candidate is rejected
only if a method IS supplied and it either fails to parse or its bit is
absent; when no method is supplied the method step behaves exactly as an
empty bitset, i.e. the candidate passes it. -/
theorem c2_method_step_amended (route : RouteOpts) (path : String)
    (opts : RadixMatchOpts) (matched : SMap) :
    (opts.method = none →
      RadixRouter.match_route_opts route path opts matched =
        RadixRouter.match_route_opts { route with methods := 0 } path opts matched)
    ∧ (∀ m, opts.method = some m → route.methods ≠ 0 →
        (RadixHttpMethod.from_str m = none →
          RadixRouter.match_route_opts route path opts matched = (false, matched))
        ∧ (∀ mb, RadixHttpMethod.from_str m = some mb →
            RadixHttpMethod.contains route.methods mb = false →
            RadixRouter.match_route_opts route path opts matched = (false, matched))) := by
  constructor
  · intro hm
    simp only [RadixRouter.match_route_opts, hm, RadixHttpMethod.is_empty]
    rcases route with ⟨id, p, porg, pop, hp, ms, hs, vs, ff, pri, meta, cp⟩
    by_cases h : ms = 0 <;> (simp [h]; try rfl)
  · intro m hm hne
    have hemp : RadixHttpMethod.is_empty route.methods = false := by
      simpa [RadixHttpMethod.is_empty] using hne
    constructor
    · intro hp
      simp [RadixRouter.match_route_opts, hm, hemp, hp]
    · intro mb hp hc
      simp [RadixRouter.match_route_opts, hm, hemp, hp, hc]

/-- C2 witness: the amended method-step behaviour at concrete inputs. -/
theorem c2_witness :
    (RadixRouter.match_route_opts
        (RadixRouter.process_route "/api/users"
          { plainNode "1" ["/api/users"] 0 "users" with
              methods := some RadixHttpMethod.GET })
        "/api/users" RadixMatchOpts.default [] =
      RadixRouter.match_route_opts
        { RadixRouter.process_route "/api/users"
            { plainNode "1" ["/api/users"] 0 "users" with
                methods := some RadixHttpMethod.GET } with methods := 0 }
        "/api/users" RadixMatchOpts.default []) := by
  exact (c2_method_step_amended _ "/api/users" RadixMatchOpts.default []).1 rfl

/-! ### C5: deleting a route that is not registered -/

/-- The router used by the C5 counterexample: a single exact route with
id `"1"` at `/a`. -/
def c5router : RadixRouter := (RadixRouter.new [plainNode "1" ["/a"] 0 "a"]).1

/-- C5 counterexample: deleting a descriptor whose path key exists but
whose id appears in no candidate list succeeds (`router.rs:414-421`
returns `Ok` whenever the key is found, even if `retain` removed
nothing), while the claim requires an error. -/
theorem c5_counterexample :
    (RadixRouter.delete_route c5router (plainNode "2" ["/a"] 0 "b")).2 = true ∧
    (∀ x ∈ ((alGet c5router.hash_path "/a").getD []), x.id ≠ "2") := by
  constructor
  · decide
  · decide

/-- C5 (amended): `remove_route` fails exactly when the path key is
absent from the relevant index (the hash map for exact paths; the tree,
or its `match_data` entry, for prefix paths); when the key is present it
reports success even if no stored candidate carries the descriptor's id.
`delete_route` on a single-path descriptor returns exactly this flag. -/
theorem c5_remove_route_flag (r : RadixRouter) (path : String) (route : RadixNode) :
    ((RadixRouter.remove_route r path route).2 =
      (let o := RadixRouter.process_route path route
       if o.path_op = PathOp.Equal then (alGet r.hash_path o.path).isSome
       else ((RadixTreeRaw.find r.tree o.path).bind
          (fun idx => alGet r.match_data idx)).isSome))
    ∧ (route.paths = [path] →
        (RadixRouter.delete_route r route).2 = (RadixRouter.remove_route r path route).2) := by
  constructor
  · simp only [RadixRouter.remove_route]
    split
    · rcases h : alGet r.hash_path (RadixRouter.process_route path route).path with _ | routes
      · simp [h]
      · simp only [h]
        split <;> simp_all
    · rcases hf : RadixTreeRaw.find r.tree (RadixRouter.process_route path route).path with _ | idx
      · simp [hf]
      · simp only [hf]
        rcases hm : alGet r.match_data idx with _ | routes
        · simp [hm]
        · simp only [hm]
          split <;> simp_all
  · intro hpaths
    simp [RadixRouter.delete_route, hpaths]

/-! ### C4: the match result and the route id -/

/-- The router of `lib.rs`'s `test_basic_match`, the C4 failing input. -/
def c4router : RadixRouter :=
  (RadixRouter.new
    [{ plainNode "1" ["/api/users"] 0 "get_users" with
        methods := some RadixHttpMethod.GET }]).1

/-- C4: at the failing input, the successful `match_route` result carries
only `metadata` and `matched` — the constructions at `router.rs:190` and
`router.rs:221` populate no `id` field, although `MatchResult` in
`route.rs` declares one and the spec requires it (the struct literals as
written do not even compile). -/
theorem c4_match_result_without_id :
    RadixRouter.match_route c4router "/api/users"
        { RadixMatchOpts.default with method := some "GET" } =
      some { metadata := "get_users",
             matched := [("_path", "/api/users"), ("_method", "GET")] } := by
  decide

/-! ### C1: which passing candidate `match_route` returns -/

/-- The router of the C1 counterexample: an exact route with priority 0
and a wildcard route with priority 10 that both pass for `/api/users`. -/
def c1router : RadixRouter :=
  (RadixRouter.new
    [plainNode "exact" ["/api/users"] 0 "exact-meta",
     plainNode "wild" ["/api/*"] 10 "wild-meta"]).1

/-- C1 counterexample: both candidates pass for `/api/users`, the
wildcard route has the strictly higher priority, yet `match_route`
returns the exact-path route — the hash phase wins regardless of
priority, refuting the claim that the highest-priority passing route is
returned across the two indices. -/
theorem c1_counterexample :
    RadixRouter.match_route c1router "/api/users" RadixMatchOpts.default =
      some { metadata := "exact-meta", matched := [("_path", "/api/users")] } ∧
    (RadixRouter.match_route_opts
        (RadixRouter.process_route "/api/*" (plainNode "wild" ["/api/*"] 10 "wild-meta"))
        "/api/users" RadixMatchOpts.default []).1 = true ∧
    (RadixRouter.process_route "/api/*" (plainNode "wild" ["/api/*"] 10 "wild-meta")).priority = 10 ∧
    (RadixRouter.process_route "/api/users" (plainNode "exact" ["/api/users"] 0 "exact-meta")).priority = 0 := by
  exact ⟨by decide, by decide, by decide, by decide⟩

/-! ### C9: host matching and the recorded `_host` -/

/-- The router of the C9 counterexample: one literal host pattern. -/
def c9router : RadixRouter :=
  (RadixRouter.new
    [{ plainNode "1" ["/api"] 0 "api" with
        hosts := some ["api.example.com"] }]).1

/-- C9 counterexample: with a literal host pattern and the mixed-case
request host `API.Example.Com`, the candidate matches but `_host` is
recorded as the lowercase-normalized host, not the request host as
given, refuting the claim's literal-pattern clause. -/
theorem c9_counterexample :
    RadixRouter.match_route c9router "/api"
        { RadixMatchOpts.default with host := some "API.Example.Com" } =
      some { metadata := "api",
             matched := [("_path", "/api"), ("_host", "api.example.com")] } ∧
    ("api.example.com" : String) ≠ "API.Example.Com" := by
  exact ⟨by decide, by decide⟩

/-! Proof-layer decomposition of `match_route_opts` into its five steps
(definitionally equal to the source translation; used to reason about
one step at a time). -/

/-- Step 1 of `match_route_opts`: the method check. -/
def methodPass (route : RouteOpts) (opts : RadixMatchOpts) : Bool :=
  if !(RadixHttpMethod.is_empty route.methods) then
    match opts.method with
    | some m =>
      match RadixHttpMethod.from_str m with
      | some mb => RadixHttpMethod.contains route.methods mb
      | none => false
    | none => true
  else true

/-- The `_method` recording between steps 1 and 2. -/
def recordMethod (opts : RadixMatchOpts) (matched : SMap) : SMap :=
  match opts.method with
  | some m => matched.insert "_method" m
  | none => matched

/-- Step 2 of `match_route_opts`: the host check. -/
def hostRes (route : RouteOpts) (opts : RadixMatchOpts) (matched : SMap) :
    Bool × SMap :=
  match route.hosts with
  | some hosts =>
    match opts.host with
    | some host =>
      match hosts.find? (fun p => p.matches host) with
      | some pat =>
        (true, matched.insert "_host"
          (if pat.is_wildcard then "*" ++ pat.pattern else host))
      | none => (false, matched)
    | none => (false, matched)
  | none => (true, matched)

/-- Step 4 of `match_route_opts`: the variable expressions. -/
def varsPass (route : RouteOpts) (opts : RadixMatchOpts) : Bool :=
  match route.vars with
  | some vars =>
    match opts.vars with
    | some req_vars => vars.all (fun e => e.eval req_vars)
    | none => false
  | none => true

/-- Step 5 of `match_route_opts`: the filter callback. -/
def filterRes (route : RouteOpts) (opts : RadixMatchOpts) (matched : SMap) :
    Bool × SMap :=
  match route.filter_fn with
  | some f => (f ((opts.vars).getD (fun _ => none)) opts, matched)
  | none => (true, matched)

/-- `match_route_opts` is its five stages composed. -/
theorem match_route_opts_staged (route : RouteOpts) (path : String)
    (opts : RadixMatchOpts) (matched : SMap) :
    RadixRouter.match_route_opts route path opts matched =
      (if !methodPass route opts then (false, matched)
       else
         let hs := hostRes route opts (recordMethod opts matched)
         if !hs.1 then (false, hs.2)
         else
           let pm := RadixRouter.compare_param path route hs.2
           if !pm.1 then (false, pm.2)
           else if !varsPass route opts then (false, pm.2)
           else filterRes route opts pm.2) := rfl

/-- `compare_param` is the identity on candidates without parameters. -/
theorem compare_param_no_param (path : String) (route : RouteOpts)
    (matched : SMap) (h : route.has_param = false) :
    RadixRouter.compare_param path route matched = (true, matched) := by
  simp [RadixRouter.compare_param, h]

/-- C9 (amended): host patterns match as claimed — a literal pattern iff
the lowercased host equals the stored (lowercased) pattern, a wildcard
pattern iff the lowercased host ends with the stored suffix (which keeps
its leading dot, only the `*` being stripped) — and on success `_host`
records `"*" + suffix` for a wildcard but the lowercase-normalized
request host (which is what `match_route` passes down) for a literal
pattern, not the request host as given. The candidate is assumed
parameterless so that no capture can shadow `_host`. -/
theorem c9_host_matching_amended (p h : String) (route : RouteOpts) (path : String)
    (opts : RadixMatchOpts) (hps : List HostPattern) (m : SMap)
    (hhosts : route.hosts = some hps) (hhost : opts.host = some h)
    (hparam : route.has_param = false)
    (hsucc : RadixRouter.match_route_opts route path opts [] = (true, m)) :
    ((HostPattern.new p).matches h =
      (if strStartsWithChar p '*' then strEndsWith (strLower h) (strLower (strDrop p 1))
       else decide (strLower h = strLower p)))
    ∧ ∃ pat, hps.find? (fun q => q.matches h) = some pat ∧
        m.get "_host" = some (if pat.is_wildcard then "*" ++ pat.pattern else h) := by
  constructor
  · unfold HostPattern.new HostPattern.matches
    by_cases hw : strStartsWithChar p '*' <;> simp [hw]
  · rw [match_route_opts_staged] at hsucc
    rcases hmp : methodPass route opts with _ | _
    · simp [hmp] at hsucc
    · simp only [hmp, Bool.not_true, Bool.false_eq_true, if_false] at hsucc
      rcases hfind : List.find? (fun q => q.matches h) hps with _ | pat
      · have hhr : hostRes route opts (recordMethod opts []) =
            (false, recordMethod opts []) := by
          simp [hostRes, hhosts, hhost, hfind]
        rw [hhr] at hsucc
        simp at hsucc
      · have hhr : hostRes route opts (recordMethod opts []) =
            (true, (recordMethod opts []).insert "_host"
              (if pat.is_wildcard then "*" ++ pat.pattern else h)) := by
          simp [hostRes, hhosts, hhost, hfind]
        rw [hhr] at hsucc
        simp only [Bool.not_true, Bool.false_eq_true, if_false] at hsucc
        rw [compare_param_no_param path route _ hparam] at hsucc
        simp only [Bool.not_true, Bool.false_eq_true, if_false] at hsucc
        refine ⟨pat, hfind, ?_⟩
        rcases hvp : varsPass route opts with _ | _
        · simp [hvp] at hsucc
        · simp only [hvp, Bool.not_true, Bool.false_eq_true, if_false] at hsucc
          have hm : ((recordMethod opts []).insert "_host"
              (if pat.is_wildcard then "*" ++ pat.pattern else h)) = m := by
            rcases hff : route.filter_fn with _ | f
            · simpa [filterRes, hff] using congrArg Prod.snd hsucc
            · simpa [filterRes, hff] using congrArg Prod.snd hsucc
          rw [← hm]
          simp [SMap.get, SMap.insert]

/-- C9 witness: the amended host behaviour at concrete inputs (literal
pattern `api.example.com`, lowercased request host, `_host` recorded as
that normalized host). -/
theorem c9_witness :
    ((HostPattern.new "api.example.com").matches "api.example.com" =
      (if strStartsWithChar "api.example.com" '*'
       then strEndsWith (strLower "api.example.com") (strLower (strDrop "api.example.com" 1))
       else decide (strLower "api.example.com" = strLower "api.example.com")))
    ∧ ∃ pat, List.find? (fun q => q.matches "api.example.com")
          [HostPattern.new "api.example.com"] = some pat ∧
        SMap.get [("_host", "api.example.com")] "_host" =
          some (if pat.is_wildcard then "*" ++ pat.pattern else "api.example.com") := by
  exact c9_host_matching_amended "api.example.com" "api.example.com"
    (RadixRouter.process_route "/api"
      { plainNode "1" ["/api"] 0 "api" with hosts := some ["api.example.com"] })
    "/api" { RadixMatchOpts.default with host := some "api.example.com" }
    [HostPattern.new "api.example.com"] [("_host", "api.example.com")]
    (by decide) rfl (by decide) (by decide)

/-! ### C10: patterns whose special characters are inside segments -/

/-- Segments that do not start with `:` or `*` contribute no capture
name. -/
theorem generate_pattern_no_names (parts : List String)
    (acc : List PatSeg × List String)
    (h : ∀ part ∈ parts, strStartsWithChar part ':' = false ∧
      strStartsWithChar part '*' = false) :
    (parts.foldl generate_pattern_step acc).2 = acc.2 := by
  induction parts generalizing acc with
  | nil => rfl
  | cons p ps ih =>
    have hp := h p (List.mem_cons_self p ps)
    have hstep : (generate_pattern_step acc p).2 = acc.2 := by
      unfold generate_pattern_step
      by_cases he : p = "" <;> simp [he, hp.1, hp.2]
    rw [List.foldl_cons, ih _ (fun q hq => h q (List.mem_cons_of_mem p hq))]
    exact hstep

/-- C10: for a pattern that contains a `:` or a non-trailing `*` only
inside segments (no segment starts with `:` or `*`), `parse_path` still
reports `has_param`, the compiled capture-name list is empty, and
`compare_param` accepts every request path unchanged, so the route
matches any path whose prefix lookup reaches its key. -/
theorem c10_no_capture_names (path : String) (d : RadixNode)
    (h1 : (':' ∈ path.data) ∨
      (∃ j, strFindChar path '*' = some j ∧ j ≠ path.length - 1))
    (h2 : ∀ part ∈ splitSlash path, strStartsWithChar part ':' = false ∧
      strStartsWithChar part '*' = false) :
    (RadixRouter.process_route path d).has_param = true ∧
    (generate_pattern path).2 = [] ∧
    ∀ req m, RadixRouter.compare_param req (RadixRouter.process_route path d) m =
      (true, m) := by
  have hnames : (generate_pattern path).2 = [] :=
    generate_pattern_no_names (splitSlash path) ([], []) h2
  have hparam : (RadixRouter.parse_path path).2.2 = true := by
    unfold RadixRouter.parse_path
    rcases hc : strFindChar path ':' with _ | pos
    · rcases h1 with h1 | ⟨j, hj, hj2⟩
      · exfalso
        have := List.findIdx?_eq_none_iff.mp hc
        simpa using this ':' h1
      · rw [hj]
        simpa using hj2
    · simp
  refine ⟨hparam, hnames, ?_⟩
  intro req m
  have hcp : (RadixRouter.process_route path d).compiled_pattern =
      some (generate_pattern path) := by
    simp [RadixRouter.process_route, hparam]
  unfold RadixRouter.compare_param
  rw [hcp]
  rcases hgp : generate_pattern path with ⟨toks, names⟩
  rw [hgp] at hnames
  simp only at hnames
  subst hnames
  simp [RadixRouter.process_route, hparam]

/-- C10 witness: the pattern `/a/b:c` at concrete inputs. -/
theorem c10_witness :
    (RadixRouter.process_route "/a/b:c" (plainNode "1" ["/a/b:c"] 0 "m")).has_param = true ∧
    (generate_pattern "/a/b:c").2 = [] ∧
    RadixRouter.compare_param "/zzz"
      (RadixRouter.process_route "/a/b:c" (plainNode "1" ["/a/b:c"] 0 "m"))
      [("x", "y")] = (true, [("x", "y")]) := by
  have h := c10_no_capture_names "/a/b:c" (plainNode "1" ["/a/b:c"] 0 "m")
    (Or.inl (by decide)) (by decide)
  exact ⟨h.1, h.2.1, h.2.2 "/zzz" [("x", "y")]⟩

/-! ### C3: bare trailing wildcards -/

/-- `SMap.get` after `SMap.insert`. -/
theorem SMap.get_insert (m : SMap) (k v k' : String) :
    (m.insert k v).get k' = if k' = k then some v else m.get k' := by
  by_cases h : k' = k
  · subst h
    simp [SMap.insert, SMap.get]
  · simp [SMap.insert, SMap.get, h, Ne.symm h]

/-- Inversion for `firstSomeDesc`. -/
theorem firstSomeDesc_eq_some {α : Type} (f : Nat → Option α) (n : Nat) (x : α)
    (h : firstSomeDesc f n = some x) : ∃ k, k ≤ n ∧ f k = some x := by
  induction n with
  | zero => exact ⟨0, Nat.le_refl 0, h⟩
  | succ n ih =>
    rw [firstSomeDesc] at h
    rcases hf : f (n + 1) with _ | y
    · rw [hf] at h
      rcases ih h with ⟨k, hk, hfk⟩
      exact ⟨k, Nat.le_succ_of_le hk, hfk⟩
    · rw [hf] at h
      exact ⟨n + 1, Nat.le_refl _, by rw [hf]; exact h⟩

/-- A successful match of a wild-terminated token list puts a suffix of
the input in the last capture. -/
theorem tmatch_wild_last (ts : List PatSeg) (cs : List Char)
    (caps : List (List Char))
    (h : tmatch (ts ++ [PatSeg.wild]) cs = some caps) :
    ∃ caps' v, caps = caps' ++ [v] ∧ v <:+ cs := by
  induction ts generalizing cs caps with
  | nil =>
    simp only [List.nil_append, tmatch] at h
    rcases firstSomeDesc_eq_some _ _ _ h with ⟨k, hk, hfk⟩
    by_cases hd : List.drop k cs = []
    · rw [if_pos hd] at hfk
      simp only [Option.map_some'] at hfk
      have hcaps : List.take k cs :: [] = caps := by injection hfk
      have htake : List.take k cs = cs :=
        List.take_of_length_le (List.drop_eq_nil_iff.mp hd)
      exact ⟨[], cs, by rw [← hcaps, htake]; rfl, List.suffix_refl cs⟩
    · rw [if_neg hd] at hfk
      simp at hfk
  | cons t ts ih =>
    cases t with
    | lit l =>
      rw [List.cons_append, tmatch] at h
      by_cases hp : l.data.isPrefixOf cs
      · rw [if_pos hp] at h
        rcases ih _ _ h with ⟨caps', v, hc, hs⟩
        exact ⟨caps', v, hc, hs.trans (List.drop_suffix _ _)⟩
      · rw [if_neg hp] at h
        exact absurd h (by simp)
    | param =>
      rw [List.cons_append, tmatch] at h
      rcases firstSomeDesc_eq_some _ _ _ h with ⟨k, hk, hfk⟩
      by_cases hg : k = 0 ∨ (cs.take k).contains '/'
      · rw [if_pos hg] at hfk
        exact absurd hfk (by simp)
      · rw [if_neg hg] at hfk
        rcases hrec : tmatch (ts ++ [PatSeg.wild]) (cs.drop k) with _ | caps1
        · rw [hrec] at hfk
          simp at hfk
        · rw [hrec] at hfk
          simp only [Option.map_some'] at hfk
          rcases ih _ _ hrec with ⟨caps1', v, hc1, hs1⟩
          have hcaps : cs.take k :: caps1 = caps := by injection hfk
          refine ⟨cs.take k :: caps1', v, ?_, hs1.trans (List.drop_suffix _ _)⟩
          rw [← hcaps, hc1]
          rfl
    | wild =>
      rw [List.cons_append, tmatch] at h
      rcases firstSomeDesc_eq_some _ _ _ h with ⟨k, hk, hfk⟩
      rcases hrec : tmatch (ts ++ [PatSeg.wild]) (cs.drop k) with _ | caps1
      · rw [hrec] at hfk
        simp at hfk
      · rw [hrec] at hfk
        simp only [Option.map_some'] at hfk
        rcases ih _ _ hrec with ⟨caps1', v, hc1, hs1⟩
        have hcaps : cs.take k :: caps1 = caps := by injection hfk
        refine ⟨cs.take k :: caps1', v, ?_, hs1.trans (List.drop_suffix _ _)⟩
        rw [← hcaps, hc1]
        rfl

/-- The number of capturing groups in a token list. -/
def countGroups (ts : List PatSeg) : Nat :=
  ts.countP (fun t => match t with | PatSeg.lit _ => false | _ => true)

/-- A successful `tmatch` produces one capture per group. -/
theorem tmatch_length (ts : List PatSeg) (cs : List Char)
    (caps : List (List Char)) (h : tmatch ts cs = some caps) :
    caps.length = countGroups ts := by
  induction ts generalizing cs caps with
  | nil =>
    rw [tmatch] at h
    by_cases hd : cs = []
    · rw [if_pos hd] at h
      have : ([] : List (List Char)) = caps := by injection h
      simp [← this, countGroups]
    · rw [if_neg hd] at h
      exact absurd h (by simp)
  | cons t ts ih =>
    cases t with
    | lit l =>
      rw [tmatch] at h
      by_cases hp : l.data.isPrefixOf cs
      · rw [if_pos hp] at h
        rw [ih _ _ h]
        simp [countGroups, List.countP_cons]
      · rw [if_neg hp] at h
        exact absurd h (by simp)
    | param =>
      rw [tmatch] at h
      rcases firstSomeDesc_eq_some _ _ _ h with ⟨k, hk, hfk⟩
      by_cases hg : k = 0 ∨ (cs.take k).contains '/'
      · rw [if_pos hg] at hfk
        exact absurd hfk (by simp)
      · rw [if_neg hg] at hfk
        rcases hrec : tmatch ts (cs.drop k) with _ | caps1
        · rw [hrec] at hfk
          simp at hfk
        · rw [hrec] at hfk
          simp only [Option.map_some'] at hfk
          have hcaps : List.take k cs :: caps1 = caps := by injection hfk
          rw [← hcaps]
          simp [countGroups, List.countP_cons, ih _ _ hrec, Nat.add_comm]
    | wild =>
      rw [tmatch] at h
      rcases firstSomeDesc_eq_some _ _ _ h with ⟨k, hk, hfk⟩
      rcases hrec : tmatch ts (cs.drop k) with _ | caps1
      · rw [hrec] at hfk
        simp at hfk
      · rw [hrec] at hfk
        simp only [Option.map_some'] at hfk
        have hcaps : List.take k cs :: caps1 = caps := by injection hfk
        rw [← hcaps]
        simp [countGroups, List.countP_cons, ih _ _ hrec, Nat.add_comm]

/-- Interleaving literal `/` tokens does not change the group count. -/
theorem countGroups_patTokens (ts : List PatSeg) :
    countGroups (patTokens ts) = countGroups ts := by
  induction ts with
  | nil => rfl
  | cons t ts ih =>
    rcases ts with _ | ⟨u, us⟩
    · rfl
    · have hpt : patTokens (t :: u :: us) = t :: PatSeg.lit "/" :: patTokens (u :: us) := rfl
      rw [hpt]
      simp [countGroups, List.countP_cons] at ih ⊢
      omega

/-- Each `generate_pattern_step` adds the same number of names and
groups. -/
theorem generate_pattern_len (parts : List String)
    (acc : List PatSeg × List String) :
    ((parts.foldl generate_pattern_step acc).2).length +
      countGroups acc.1 =
    countGroups ((parts.foldl generate_pattern_step acc).1) +
      acc.2.length := by
  induction parts generalizing acc with
  | nil =>
    rw [List.foldl_nil]
    omega
  | cons p ps ih =>
    rw [List.foldl_cons]
    have hstep :
        (generate_pattern_step acc p).2.length + countGroups acc.1 =
        countGroups (generate_pattern_step acc p).1 + acc.2.length := by
      unfold generate_pattern_step
      by_cases he : p = ""
      · simp [he, countGroups]
        omega
      · by_cases hc : strStartsWithChar p ':'
        · simp [he, hc, countGroups, List.countP_append]
          omega
        · by_cases hw : strStartsWithChar p '*'
          · simp [he, hc, hw, countGroups, List.countP_append]
            omega
          · simp [he, hc, hw, countGroups, List.countP_append]
            omega
    have := ih (generate_pattern_step acc p)
    omega

/-- A token list ending in `wild` stays wild-terminated after
interleaving. -/
theorem patTokens_wild_last (ts : List PatSeg) :
    ∃ ts2, patTokens (ts ++ [PatSeg.wild]) = ts2 ++ [PatSeg.wild] := by
  induction ts with
  | nil => exact ⟨[], rfl⟩
  | cons t ts ih =>
    rcases hts : ts ++ [PatSeg.wild] with _ | ⟨x, xs⟩
    · exact absurd hts (by simp)
    · rcases ih with ⟨ts2, hts2⟩
      rw [hts] at hts2
      refine ⟨t :: PatSeg.lit "/" :: ts2, ?_⟩
      have hpt : patTokens (t :: x :: xs) = t :: PatSeg.lit "/" :: patTokens (x :: xs) := rfl
      rw [List.cons_append, hts, hpt, hts2]
      rfl

/-- `generate_pattern` on a pattern whose last segment is a bare `*`:
one `wild` token and the synthetic name `":ext"` are appended last. -/
theorem generate_pattern_bare_star (path : String) (parts : List String)
    (hsplit : splitSlash path = parts ++ ["*"]) :
    generate_pattern path =
      ((parts.foldl generate_pattern_step ([], [])).1 ++ [PatSeg.wild],
       (parts.foldl generate_pattern_step ([], [])).2 ++ [":ext"]) := by
  have hstep : ∀ acc : List PatSeg × List String,
      generate_pattern_step acc "*" = (acc.1 ++ [PatSeg.wild], acc.2 ++ [":ext"]) := by
    intro acc
    have h1 : ¬ (("*" : String) = "") := by decide
    have h2 : strStartsWithChar "*" ':' = false := by decide
    have h3 : strStartsWithChar "*" '*' = true := by decide
    have h4 : ¬ (1 < ("*" : String).length) := by decide
    simp [generate_pattern_step, h1, h2, h3, h4]
  unfold generate_pattern
  rw [hsplit, List.foldl_append, List.foldl_cons, List.foldl_nil, hstep]

/-- A successful `compare_param` against a pattern ending in a bare `*`
stores a suffix of the request path under the synthetic name `":ext"`. -/
theorem compare_param_bare_star_tail (path req : String) (d : RadixNode)
    (parts : List String) (hsplit : splitSlash path = parts ++ ["*"])
    (hparam : (RadixRouter.parse_path path).2.2 = true) (m m' : SMap)
    (h : RadixRouter.compare_param req (RadixRouter.process_route path d) m =
      (true, m')) :
    ∃ v : String, m'.get ":ext" = some v ∧ strEndsWith req v := by
  have hrp : (RadixRouter.process_route path d).has_param = true := hparam
  have hcp : (RadixRouter.process_route path d).compiled_pattern =
      some (generate_pattern path) := by
    simp [RadixRouter.process_route, hparam]
  have hgp := generate_pattern_bare_star path parts hsplit
  rcases hacc : parts.foldl generate_pattern_step ([], []) with ⟨toks0, names0⟩
  rw [hacc] at hgp
  simp only at hgp
  rw [RadixRouter.compare_param, hrp, hcp, hgp] at h
  simp only [Bool.not_true, Bool.false_eq_true, if_false] at h
  have hne : (names0 ++ [":ext"]).isEmpty = false := by simp
  rw [hne] at h
  simp only [Bool.false_eq_true, if_false] at h
  rcases hmt : tmatch (patTokens (toks0 ++ [PatSeg.wild])) req.data with _ | caps
  · rw [hmt] at h
    exact absurd h (by simp)
  · rw [hmt] at h
    have hm' : (((names0 ++ [":ext"]).zip caps).foldl
        (fun mm nc => mm.insert nc.1 ⟨nc.2⟩) m) = m' := by
      injection h
    rcases patTokens_wild_last toks0 with ⟨ts2, hpt⟩
    rw [hpt] at hmt
    rcases tmatch_wild_last ts2 req.data caps hmt with ⟨caps', v, hcaps, hsuf⟩
    have hlen_caps : caps.length = countGroups (toks0 ++ [PatSeg.wild]) := by
      rw [← countGroups_patTokens (toks0 ++ [PatSeg.wild]), hpt]
      exact tmatch_length _ _ _ hmt
    have hlen_names : names0.length = countGroups toks0 := by
      have := generate_pattern_len parts ([], [])
      rw [hacc] at this
      simpa [countGroups] using this
    have hlen : names0.length = caps'.length := by
      rw [hcaps] at hlen_caps
      simp [countGroups, List.countP_append] at hlen_caps
      simp [hlen_names, hlen_caps, countGroups]
    have hzip : (names0 ++ [":ext"]).zip (caps' ++ [v]) =
        names0.zip caps' ++ [(":ext", v)] := by
      rw [List.zip_append hlen]
      rfl
    rw [hcaps, hzip] at hm'
    rw [List.foldl_append] at hm'
    simp only [List.foldl_cons, List.foldl_nil] at hm'
    refine ⟨⟨v⟩, ?_, ?_⟩
    · rw [← hm', SMap.get_insert]
      simp
    · exact List.isSuffixOf_iff_suffix.mpr hsuf

/-- A successful per-candidate evaluation factors through
`compare_param`: the final map is the parameter step's output. -/
theorem match_route_opts_success_param (route : RouteOpts) (req : String)
    (opts : RadixMatchOpts) (m : SMap)
    (h : RadixRouter.match_route_opts route req opts [] = (true, m)) :
    ∃ m0, RadixRouter.compare_param req route m0 = (true, m) := by
  rw [match_route_opts_staged] at h
  rcases hmp : methodPass route opts with _ | _
  · simp [hmp] at h
  · simp only [hmp, Bool.not_true, Bool.false_eq_true, if_false] at h
    rcases hhr : hostRes route opts (recordMethod opts []) with ⟨hb, hm2⟩
    rw [hhr] at h
    rcases hb with _ | _
    · simp at h
    · simp only [Bool.not_true, Bool.false_eq_true, if_false] at h
      rcases hpm : RadixRouter.compare_param req route hm2 with ⟨pb, pm2⟩
      rw [hpm] at h
      rcases pb with _ | _
      · simp at h
      · simp only [Bool.not_true, Bool.false_eq_true, if_false] at h
        rcases hvp : varsPass route opts with _ | _
        · simp [hvp] at h
        · simp only [hvp, Bool.not_true, Bool.false_eq_true, if_false] at h
          have hpm2 : pm2 = m := by
            rcases hff : route.filter_fn with _ | f <;>
              simpa [filterRes, hff] using congrArg Prod.snd h
          exact ⟨hm2, by rw [hpm, hpm2]⟩

/-- A parameterless candidate's successful evaluation can only have
recorded `_method` and `_host`: every other key is absent from the map. -/
theorem match_route_opts_no_param_keys (route : RouteOpts) (req : String)
    (opts : RadixMatchOpts) (m : SMap) (hparam : route.has_param = false)
    (h : RadixRouter.match_route_opts route req opts [] = (true, m)) :
    ∀ k, k ≠ "_method" → k ≠ "_host" → m.get k = none := by
  intro k hk1 hk2
  have hrm : ∀ k', k' ≠ "_method" → SMap.get (recordMethod opts []) k' = none := by
    intro k' hk'
    rcases hom : opts.method with _ | mm
    · simp only [recordMethod, hom]
      rfl
    · simp only [recordMethod, hom, SMap.get_insert]
      rw [if_neg hk']
      rfl
  rw [match_route_opts_staged] at h
  rcases hmp : methodPass route opts with _ | _
  · simp [hmp] at h
  · simp only [hmp, Bool.not_true, Bool.false_eq_true, if_false] at h
    rcases hhr : hostRes route opts (recordMethod opts []) with ⟨hb, hm2⟩
    have hshape0 : (hostRes route opts (recordMethod opts [])).2 = recordMethod opts [] ∨
        ∃ w, (hostRes route opts (recordMethod opts [])).2 =
          (recordMethod opts []).insert "_host" w := by
      rcases hh : route.hosts with _ | hosts
      · simp [hostRes, hh]
      · rcases ho : opts.host with _ | host
        · simp [hostRes, hh, ho]
        · rcases hf : List.find? (fun p => p.matches host) hosts with _ | pat
          · simp [hostRes, hh, ho, hf]
          · exact Or.inr ⟨(if pat.is_wildcard then "*" ++ pat.pattern else host),
              by simp [hostRes, hh, ho, hf]⟩
    have hshape : hm2 = recordMethod opts [] ∨
        ∃ w, hm2 = (recordMethod opts []).insert "_host" w := by
      have h2 := congrArg Prod.snd hhr
      simp only at h2
      rw [h2] at hshape0
      exact hshape0
    rw [hhr] at h
    rcases hb with _ | _
    · simp at h
    · simp only [Bool.not_true, Bool.false_eq_true, if_false] at h
      rw [compare_param_no_param req route hm2 hparam] at h
      simp only [Bool.not_true, Bool.false_eq_true, if_false] at h
      rcases hvp : varsPass route opts with _ | _
      · simp [hvp] at h
      · simp only [hvp, Bool.not_true, Bool.false_eq_true, if_false] at h
        have hm2m : hm2 = m := by
          rcases hff : route.filter_fn with _ | f <;>
            simpa [filterRes, hff] using congrArg Prod.snd h
        rw [← hm2m]
        rcases hshape with hs1 | ⟨w, hs2⟩
        · rw [hs1]
          exact hrm k hk1
        · rw [hs2, SMap.get_insert]
          simp only [hk2, if_false]
          exact hrm k hk1

/-- The router of the C3 counterexample: one bare-`*` route. -/
def c3router : RadixRouter := (RadixRouter.new [plainNode "1" ["/files/*"] 0 "m"]).1

/-- C3 counterexample: the route `/files/*` matches the request, but the
returned map holds no capture at all — in particular nothing under
`ext`: a bare trailing `*` sets `has_param` to false
(`router.rs:156-159`), so no pattern is compiled and no tail is
captured. -/
theorem c3_counterexample :
    RadixRouter.match_route c3router "/files/docs/readme.txt" RadixMatchOpts.default =
      some { metadata := "m", matched := [("_path", "/files/*")] } ∧
    SMap.get [("_path", "/files/*")] "ext" = none := by
  exact ⟨by decide, by decide⟩

/-- C3 (amended): a pattern whose last segment is a bare `*` captures no
tail at all when the `*` is the pattern's only parameter-like character
(`has_param` is false and the matched map holds neither `ext` nor
`:ext`); when the pattern additionally contains an earlier `:` or `*`
(so a regex is compiled), the tail is captured under the synthetic name
`":ext"` — with the colon — not under `ext`. -/
theorem c3_bare_wildcard_amended (path : String) (d : RadixNode) :
    ((strFindChar path ':' = none ∧
        strFindChar path '*' = some (path.length - 1)) →
      (RadixRouter.process_route path d).has_param = false ∧
      ∀ opts req m,
        RadixRouter.match_route_opts (RadixRouter.process_route path d) req opts [] =
          (true, m) →
        m.get ":ext" = none ∧ m.get "ext" = none)
    ∧ (∀ parts, splitSlash path = parts ++ ["*"] →
        (RadixRouter.parse_path path).2.2 = true →
        ∀ opts req m,
          RadixRouter.match_route_opts (RadixRouter.process_route path d) req opts [] =
            (true, m) →
          ∃ v : String, m.get ":ext" = some v ∧ strEndsWith req v) := by
  constructor
  · rintro ⟨hc, hw⟩
    have hparam : (RadixRouter.process_route path d).has_param = false := by
      show (RadixRouter.parse_path path).2.2 = false
      unfold RadixRouter.parse_path
      rw [hc, hw]
      simp
    refine ⟨hparam, ?_⟩
    intro opts req m h
    exact ⟨match_route_opts_no_param_keys _ req opts m hparam h ":ext"
        (by decide) (by decide),
      match_route_opts_no_param_keys _ req opts m hparam h "ext"
        (by decide) (by decide)⟩
  · intro parts hsplit hparam opts req m h
    rcases match_route_opts_success_param _ req opts m h with ⟨m0, hcp⟩
    exact compare_param_bare_star_tail path req d parts hsplit hparam m0 m hcp

/-- C3 witness: for `/a/:x/*` (a compiled pattern ending in a bare `*`)
and the request `/a/v/tail/x.txt`, the tail is stored under `":ext"` and
is a suffix of the request path. -/
theorem c3_witness :
    ∃ v : String,
      SMap.get [(":ext", "tail/x.txt"), ("x", "v")] ":ext" = some v ∧
      strEndsWith "/a/v/tail/x.txt" v := by
  exact (c3_bare_wildcard_amended "/a/:x/*" (plainNode "1" ["/a/:x/*"] 0 "m")).2
    ["", "a", ":x"] (by decide) (by decide) RadixMatchOpts.default
    "/a/v/tail/x.txt" [(":ext", "tail/x.txt"), ("x", "v")] (by decide)

/-! ### C6: candidate lists stay sorted -/

/-- The comparator never says `Greater` iff the first candidate may come
first: higher priority, or equal priority and at least as long a
pattern. -/
theorem cmp_priority_ne_gt (a b : RouteOpts) :
    (a.cmp_priority b ≠ Ordering.gt) ↔
      (b.priority < a.priority ∨
        (b.priority = a.priority ∧ b.path_org.length ≤ a.path_org.length)) := by
  unfold RouteOpts.cmp_priority
  split_ifs with h1 h2 h3 h4 <;> simp <;> omega

theorem rle_total (a b : RouteOpts) : rle a b ∨ rle b a := by
  simp only [rle, cmp_priority_ne_gt]
  omega

theorem rle_trans (a b c : RouteOpts) (h1 : rle a b) (h2 : rle b c) : rle a c := by
  simp only [rle, cmp_priority_ne_gt] at h1 h2 ⊢
  omega

instance : IsTotal RouteOpts rle := ⟨rle_total⟩

instance : IsTrans RouteOpts rle := ⟨rle_trans⟩

/-- `sortRoutes` sorts. -/
theorem sortRoutes_pairwise (l : List RouteOpts) : (sortRoutes l).Pairwise rle :=
  List.sorted_insertionSort rle l

/-- The sortedness invariant of both candidate stores (spec §3
Invariants; the claim of C6). -/
def SortedInv (r : RadixRouter) : Prop :=
  (∀ e ∈ r.hash_path, e.2.Pairwise rle) ∧
  (∀ e ∈ r.match_data, e.2.Pairwise rle)

instance (r : RadixRouter) : Decidable (SortedInv r) := by
  unfold SortedInv
  infer_instance

/-- Membership in an updated association list. -/
theorem alSet_mem {κ v : Type} [DecidableEq κ] (m : List (κ × v)) (k : κ)
    (val : v) (e : κ × v) (he : e ∈ alSet m k val) : e = (k, val) ∨ e ∈ m := by
  unfold alSet at he
  rcases List.mem_cons.mp he with rfl | hx
  · exact Or.inl rfl
  · exact Or.inr (List.mem_of_mem_filter hx)

/-- Membership after a removal. -/
theorem alRemove_mem {κ v : Type} [DecidableEq κ] (m : List (κ × v)) (k : κ)
    (e : κ × v) (he : e ∈ alRemove m k) : e ∈ m :=
  List.mem_of_mem_filter he

/-- `insert_route` preserves the sortedness invariant. -/
theorem insert_route_sorted (r : RadixRouter) (path : String) (d : RadixNode)
    (h : SortedInv r) : SortedInv (RadixRouter.insert_route r path d).1 := by
  unfold RadixRouter.insert_route
  dsimp only
  split
  · refine ⟨?_, h.2⟩
    intro e he
    rcases alSet_mem _ _ _ e he with he1 | he1
    · rw [he1]
      exact sortRoutes_pairwise _
    · exact h.1 e he1
  · split
    · split
      · refine ⟨h.1, ?_⟩
        intro e he
        rcases alSet_mem _ _ _ e he with he1 | he1
        · rw [he1]
          exact sortRoutes_pairwise _
        · exact h.2 e he1
      · unfold RadixRouter.insert_route_new
        refine ⟨h.1, ?_⟩
        intro e he
        rcases alSet_mem _ _ _ e he with he1 | he1
        · rw [he1]
          exact List.pairwise_singleton rle _
        · exact h.2 e he1
    · unfold RadixRouter.insert_route_new
      refine ⟨h.1, ?_⟩
      intro e he
      rcases alSet_mem _ _ _ e he with he1 | he1
      · rw [he1]
        exact List.pairwise_singleton rle _
      · exact h.2 e he1

/-- A value read from an association list satisfies any property all
stored values satisfy. -/
theorem alGet_prop {κ v : Type} [DecidableEq κ] (m : List (κ × v)) (k : κ)
    (val : v) (P : v → Prop) (hget : alGet m k = some val)
    (hm : ∀ e ∈ m, P e.2) : P val := by
  unfold alGet at hget
  rcases hfind : m.find? (fun e => e.1 = k) with _ | e
  · rw [hfind] at hget
    simp at hget
  · rw [hfind] at hget
    simp only [Option.map_some'] at hget
    have hmem := List.mem_of_find?_eq_some hfind
    have h2 := hm e hmem
    have : e.2 = val := by injection hget
    rwa [this] at h2

/-- `remove_route` preserves the sortedness invariant. -/
theorem remove_route_sorted (r : RadixRouter) (path : String) (d : RadixNode)
    (h : SortedInv r) : SortedInv (RadixRouter.remove_route r path d).1 := by
  unfold RadixRouter.remove_route
  dsimp only
  split
  · rcases hget : alGet r.hash_path (RadixRouter.process_route path d).path
        with _ | routes
    · simp only [hget]
      exact h
    · simp only [hget]
      split
      · exact ⟨fun e he => h.1 e (alRemove_mem _ _ e he), h.2⟩
      · refine ⟨?_, h.2⟩
        intro e he
        rcases alSet_mem _ _ _ e he with he1 | he1
        · rw [he1]
          exact (alGet_prop _ _ _ _ hget h.1).filter _
        · exact h.1 e he1
  · rcases hfind : RadixTreeRaw.find r.tree (RadixRouter.process_route path d).path
        with _ | idx
    · simp only [hfind]
      exact h
    · simp only [hfind]
      rcases hget : alGet r.match_data idx with _ | routes
      · simp only [hget]
        exact h
      · simp only [hget]
        split
        · exact ⟨h.1, fun e he => h.2 e (alRemove_mem _ _ e he)⟩
        · refine ⟨h.1, ?_⟩
          intro e he
          rcases alSet_mem _ _ _ e he with he1 | he1
          · rw [he1]
            exact (alGet_prop _ _ _ _ hget h.2).filter _
          · exact h.2 e he1

/-- `add_route` preserves the sortedness invariant. -/
theorem add_route_sorted (r : RadixRouter) (d : RadixNode)
    (h : SortedInv r) : SortedInv (RadixRouter.add_route r d).1 := by
  unfold RadixRouter.add_route
  have : ∀ (paths : List String) (acc : RadixRouter × Bool), SortedInv acc.1 →
      SortedInv (paths.foldl
        (fun acc path => if acc.2 then RadixRouter.insert_route acc.1 path d else acc)
        acc).1 := by
    intro paths
    induction paths with
    | nil => intro acc hacc; exact hacc
    | cons p ps ih =>
      intro acc hacc
      rw [List.foldl_cons]
      by_cases hflag : acc.2
      · rw [if_pos hflag]
        exact ih _ (insert_route_sorted acc.1 p d hacc)
      · rw [if_neg hflag]
        exact ih _ hacc
  exact this d.paths (r, true) h

/-- `delete_route` preserves the sortedness invariant. -/
theorem delete_route_sorted (r : RadixRouter) (d : RadixNode)
    (h : SortedInv r) : SortedInv (RadixRouter.delete_route r d).1 := by
  unfold RadixRouter.delete_route
  have : ∀ (paths : List String) (acc : RadixRouter × Bool), SortedInv acc.1 →
      SortedInv (paths.foldl
        (fun acc path => if acc.2 then RadixRouter.remove_route acc.1 path d else acc)
        acc).1 := by
    intro paths
    induction paths with
    | nil => intro acc hacc; exact hacc
    | cons p ps ih =>
      intro acc hacc
      rw [List.foldl_cons]
      by_cases hflag : acc.2
      · rw [if_pos hflag]
        exact ih _ (remove_route_sorted acc.1 p d hacc)
      · rw [if_neg hflag]
        exact ih _ hacc
  exact this d.paths (r, true) h

/-- Router states reachable through the public lifecycle operations
(`RadixRouter::new` starts from the empty state and applies
`add_route`). -/
inductive Reachable : RadixRouter → Prop where
  | new : Reachable RadixRouter.empty
  | add (r : RadixRouter) (d : RadixNode) :
      Reachable r → Reachable (RadixRouter.add_route r d).1
  | update (r : RadixRouter) (dold dnew : RadixNode) :
      Reachable r → Reachable (RadixRouter.update_route r dold dnew).1
  | delete (r : RadixRouter) (d : RadixNode) :
      Reachable r → Reachable (RadixRouter.delete_route r d).1

/-- C6: after any sequence of `add_route`, `update_route` and
`delete_route` operations, every candidate list in the hash index and in
the tree-indexed store is sorted by descending priority with ties broken
by descending original-pattern length. -/
theorem c6_candidate_lists_sorted (r : RadixRouter) (h : Reachable r) :
    SortedInv r := by
  induction h with
  | new =>
    exact ⟨fun e he => absurd he (List.not_mem_nil e),
      fun e he => absurd he (List.not_mem_nil e)⟩
  | add r d hr ih => exact add_route_sorted r d ih
  | update r dold dnew hr ih =>
    unfold RadixRouter.update_route
    by_cases hflag : (RadixRouter.delete_route r dold).2
    · rw [if_pos hflag]
      exact add_route_sorted _ dnew (delete_route_sorted r dold ih)
    · rw [if_neg hflag]
      exact delete_route_sorted r dold ih
  | delete r d hr ih => exact delete_route_sorted r d ih

/-- C6 witness: a concrete reachable router (two adds then a delete)
satisfies the sortedness invariant. -/
theorem c6_witness :
    SortedInv (RadixRouter.delete_route
      (RadixRouter.add_route
        (RadixRouter.add_route RadixRouter.empty
          (plainNode "a" ["/api/users"] 0 "a")).1
        (plainNode "b" ["/api/*", "/api/users"] 5 "b")).1
      (plainNode "a" ["/api/users"] 0 "a")).1 :=
  c6_candidate_lists_sorted _
    (Reachable.delete _ _ (Reachable.add _ _ (Reachable.add _ _ Reachable.new)))

/-! ### C1 (amended): the selection rule actually implemented -/

/-- Host normalization performed at the top of `match_route`. -/
def normalizeOpts (opts : RadixMatchOpts) : RadixMatchOpts :=
  match opts.host with
  | some host => { opts with host := some (strLower host) }
  | none => opts

/-- The candidate buckets in `match_route`'s visit order: first the hash
bucket for the exact path, then the tree buckets, deepest prefix first. -/
def matchBuckets (r : RadixRouter) (path : String) : List (List RouteOpts) :=
  ((alGet r.hash_path path).getD []) ::
    (RadixTreeRaw.upPayloads r.tree path).map
      (fun idx => (alGet r.match_data idx).getD [])

/-- Whether a candidate passes the per-candidate evaluation. -/
def passes (route : RouteOpts) (path : String) (opts : RadixMatchOpts) : Bool :=
  (RadixRouter.match_route_opts route path opts []).1

/-- `match_route`, re-stated through `normalizeOpts` and the flattened
tree buckets. -/
theorem match_route_eq (r : RadixRouter) (path : String) (opts : RadixMatchOpts) :
    RadixRouter.match_route r path opts =
      (match RadixRouter.first_success ((alGet r.hash_path path).getD []) path
          (normalizeOpts opts) with
       | some rm => some { metadata := rm.1.metadata, matched := rm.2.insert "_path" path }
       | none =>
         if !(RadixTreeRaw.seekHit r.tree path) then none
         else
           match RadixRouter.first_success
               (((RadixTreeRaw.upPayloads r.tree path).map
                 (fun idx => (alGet r.match_data idx).getD [])).flatten) path
               (normalizeOpts opts) with
           | some rm =>
             some { metadata := rm.1.metadata, matched := rm.2.insert "_path" rm.1.path_org }
           | none => none) := rfl

/-- `rle` is reflexive. -/
theorem rle_refl (a : RouteOpts) : rle a a :=
  (rle_total a a).elim id id

/-- An exhausted candidate loop means every candidate failed. -/
theorem first_success_none (routes : List RouteOpts) (path : String)
    (opts : RadixMatchOpts)
    (h : RadixRouter.first_success routes path opts = none) :
    ∀ c ∈ routes, passes c path opts = false := by
  induction routes with
  | nil => intro c hc; cases hc
  | cons x xs ih =>
    rw [RadixRouter.first_success] at h
    by_cases hx : (RadixRouter.match_route_opts x path opts []).1
    · rw [if_pos hx] at h
      cases h
    · rw [if_neg hx] at h
      intro c hc
      rcases List.mem_cons.mp hc with rfl | hc
      · simpa [passes] using hx
      · exact ih h c hc

/-- A successful candidate loop returns a passing member that outranks
every passing member of a sorted list. -/
theorem first_success_some (routes : List RouteOpts) (path : String)
    (opts : RadixMatchOpts) (c : RouteOpts) (m : SMap)
    (hsorted : routes.Pairwise rle)
    (h : RadixRouter.first_success routes path opts = some (c, m)) :
    c ∈ routes ∧ RadixRouter.match_route_opts c path opts [] = (true, m) ∧
      ∀ c' ∈ routes, passes c' path opts = true → rle c c' := by
  induction routes with
  | nil => cases h
  | cons x xs ih =>
    rw [RadixRouter.first_success] at h
    by_cases hx : (RadixRouter.match_route_opts x path opts []).1
    · rw [if_pos hx] at h
      have hcx : x = c ∧ (RadixRouter.match_route_opts x path opts []).2 = m := by
        have := Option.some.inj h
        exact ⟨congrArg Prod.fst this, congrArg Prod.snd this⟩
      rcases hcx with ⟨rfl, hm⟩
      refine ⟨List.mem_cons_self _ _, ?_, ?_⟩
      · exact Prod.ext hx hm
      · intro c' hc' hp
        rcases List.mem_cons.mp hc' with rfl | hc'
        · exact rle_refl c'
        · exact (List.pairwise_cons.mp hsorted).1 c' hc'
    · rw [if_neg hx] at h
      rcases ih (List.pairwise_cons.mp hsorted).2 h with ⟨hmem, heval, hmax⟩
      refine ⟨List.mem_cons_of_mem x hmem, heval, ?_⟩
      intro c' hc' hp
      rcases List.mem_cons.mp hc' with rfl | hc'
      · exact absurd hp (by simpa [passes] using hx)
      · exact hmax c' hc' hp

/-- The candidate loop distributes over appending. -/
theorem first_success_append (l1 l2 : List RouteOpts) (path : String)
    (opts : RadixMatchOpts) :
    RadixRouter.first_success (l1 ++ l2) path opts =
      (match RadixRouter.first_success l1 path opts with
       | some x => some x
       | none => RadixRouter.first_success l2 path opts) := by
  induction l1 with
  | nil => rfl
  | cons x xs ih =>
    rw [List.cons_append, RadixRouter.first_success, RadixRouter.first_success]
    by_cases hx : (RadixRouter.match_route_opts x path opts []).1
    · rw [if_pos hx, if_pos hx]
    · rw [if_neg hx, if_neg hx, ih]

/-- A success over flattened buckets happens in a first bucket whose
predecessors are all exhausted. -/
theorem first_success_flatten (bs : List (List RouteOpts)) (path : String)
    (opts : RadixMatchOpts) (c : RouteOpts) (m : SMap)
    (h : RadixRouter.first_success bs.flatten path opts = some (c, m)) :
    ∃ bs1 b bs2, bs = bs1 ++ b :: bs2 ∧
      RadixRouter.first_success b path opts = some (c, m) ∧
      ∀ b' ∈ bs1, RadixRouter.first_success b' path opts = none := by
  induction bs with
  | nil => cases h
  | cons b bs ih =>
    rw [List.flatten_cons, first_success_append] at h
    rcases hb : RadixRouter.first_success b path opts with _ | x
    · rw [hb] at h
      rcases ih h with ⟨bs1, b0, bs2, hsplit, hsome, hnone⟩
      refine ⟨b :: bs1, b0, bs2, by rw [hsplit]; rfl, hsome, ?_⟩
      intro b' hb'
      rcases List.mem_cons.mp hb' with rfl | hb'
      · exact hb
      · exact hnone b' hb'
    · rw [hb] at h
      have : x = (c, m) := by injection h
      exact ⟨[], b, bs, rfl, by rw [hb, this], fun b' hb' => absurd hb' (List.not_mem_nil b')⟩

/-- With no prefix hit, the upward walk is empty. -/
theorem upPayloads_nil_of_no_seek (t : RadixTreeRaw) (path : String)
    (h : RadixTreeRaw.seekHit t path = false) :
    RadixTreeRaw.upPayloads t path = [] := by
  unfold RadixTreeRaw.seekHit at h
  unfold RadixTreeRaw.upPayloads
  have hfilter : t.filter (fun e => strIsPrefixOf e.1 path && e.1 ≠ path) = [] := by
    rw [List.filter_eq_nil_iff]
    intro e he
    have h2 : strIsPrefixOf e.1 path = false := by
      by_contra hcon
      have hany : t.any (fun e => strIsPrefixOf e.1 path) = true :=
        List.any_eq_true.mpr ⟨e, he, by simpa using hcon⟩
      rw [hany] at h
      exact Bool.noConfusion h
    simp [h2]
  rw [hfilter]
  rfl

/-- Every bucket of a sorted router is sorted. -/
theorem matchBuckets_pairwise (r : RadixRouter) (path : String)
    (hinv : SortedInv r) :
    ∀ b ∈ matchBuckets r path, b.Pairwise rle := by
  intro b hb
  rcases List.mem_cons.mp hb with rfl | hb
  · rcases hget : alGet r.hash_path path with _ | l
    · simp [hget]
    · simpa [hget] using alGet_prop _ _ _ _ hget hinv.1
  · rcases List.mem_map.mp hb with ⟨idx, hidx, hbeq⟩
    rcases hget : alGet r.match_data idx with _ | l
    · simp [← hbeq, hget]
    · rw [← hbeq, hget]
      exact alGet_prop _ _ _ _ hget hinv.2

/-- C1 (amended): `match_route` returns, from the first bucket in visit
order (exact-path hash bucket, then tree buckets by decreasing prefix
length) that contains a passing candidate, the passing candidate with
the highest priority, ties broken by the longest original pattern;
passing candidates in earlier buckets always win regardless of
priority, and `none` is returned exactly when every candidate of every
bucket fails. -/
theorem c1_match_first_passing_bucket (r : RadixRouter) (path : String)
    (opts : RadixMatchOpts) (hinv : SortedInv r) :
    (RadixRouter.match_route r path opts = none →
      ∀ b ∈ matchBuckets r path, ∀ c ∈ b,
        passes c path (normalizeOpts opts) = false)
    ∧ ∀ res, RadixRouter.match_route r path opts = some res →
      ∃ bs1 b bs2 c, matchBuckets r path = bs1 ++ b :: bs2 ∧
        c ∈ b ∧ passes c path (normalizeOpts opts) = true ∧
        res.metadata = c.metadata ∧
        (∀ b' ∈ bs1, ∀ c' ∈ b', passes c' path (normalizeOpts opts) = false) ∧
        (∀ c' ∈ b, passes c' path (normalizeOpts opts) = true →
          c'.priority < c.priority ∨
            (c'.priority = c.priority ∧
              c'.path_org.length ≤ c.path_org.length)) := by
  constructor
  · intro hnone b hb c hc
    rw [match_route_eq] at hnone
    rcases h1 : RadixRouter.first_success ((alGet r.hash_path path).getD []) path
        (normalizeOpts opts) with _ | rm
    · rw [h1] at hnone
      rcases List.mem_cons.mp hb with rfl | hb
      · exact first_success_none _ _ _ h1 c hc
      · rcases hseek : RadixTreeRaw.seekHit r.tree path with _ | _
        · have hup := upPayloads_nil_of_no_seek _ _ hseek
          rw [hup] at hb
          cases hb
        · rw [hseek] at hnone
          simp only [Bool.not_true, Bool.false_eq_true, if_false] at hnone
          rcases h2 : RadixRouter.first_success
              (((RadixTreeRaw.upPayloads r.tree path).map
                (fun idx => (alGet r.match_data idx).getD [])).flatten) path
              (normalizeOpts opts) with _ | rm2
          · exact first_success_none _ _ _ h2 c (List.mem_flatten.mpr ⟨b, hb, hc⟩)
          · rw [h2] at hnone
            cases hnone
    · rw [h1] at hnone
      cases hnone
  · intro res hres
    rw [match_route_eq] at hres
    rcases h1 : RadixRouter.first_success ((alGet r.hash_path path).getD []) path
        (normalizeOpts opts) with _ | rm
    · rw [h1] at hres
      rcases hseek : RadixTreeRaw.seekHit r.tree path with _ | _
      · rw [hseek] at hres
        simp at hres
      · rw [hseek] at hres
        simp only [Bool.not_true, Bool.false_eq_true, if_false] at hres
        rcases h2 : RadixRouter.first_success
            (((RadixTreeRaw.upPayloads r.tree path).map
              (fun idx => (alGet r.match_data idx).getD [])).flatten) path
            (normalizeOpts opts) with _ | rm2
        · rw [h2] at hres
          cases hres
        · rw [h2] at hres
          rcases rm2 with ⟨c, m⟩
          rcases first_success_flatten _ path (normalizeOpts opts) c m h2
            with ⟨bs1, b, bs2, hsplit, hsome, hnone1⟩
          have hbmem : b ∈ matchBuckets r path := by
            unfold matchBuckets
            exact List.mem_cons_of_mem _
              (hsplit ▸ List.mem_append_right bs1 (List.mem_cons_self b bs2))
          have hpair := matchBuckets_pairwise r path hinv b hbmem
          rcases first_success_some b path (normalizeOpts opts) c m hpair hsome
            with ⟨hcmem, heval, hmax⟩
          refine ⟨((alGet r.hash_path path).getD []) :: bs1, b, bs2, c, ?_, hcmem,
            ?_, ?_, ?_, ?_⟩
          · show matchBuckets r path = _
            unfold matchBuckets
            rw [hsplit]
            rfl
          · simp [passes, heval]
          · have : res = { metadata := c.metadata, matched := m.insert "_path" c.path_org } := by
              injection hres with h3
              exact h3.symm
            rw [this]
          · intro b' hb' c' hc'
            rcases List.mem_cons.mp hb' with rfl | hb'
            · exact first_success_none _ _ _ h1 c' hc'
            · exact first_success_none _ _ _ (hnone1 b' hb') c' hc'
          · intro c' hc' hp
            have := hmax c' hc' hp
            rw [rle, cmp_priority_ne_gt] at this
            exact this
    · rw [h1] at hres
      rcases rm with ⟨c, m⟩
      have hpair := matchBuckets_pairwise r path hinv _
        (List.mem_cons_self ((alGet r.hash_path path).getD []) _)
      rcases first_success_some _ path (normalizeOpts opts) c m hpair h1
        with ⟨hcmem, heval, hmax⟩
      refine ⟨[], (alGet r.hash_path path).getD [],
        (RadixTreeRaw.upPayloads r.tree path).map
          (fun idx => (alGet r.match_data idx).getD []), c, rfl, hcmem, ?_, ?_, ?_, ?_⟩
      · simp [passes, heval]
      · have : res = { metadata := c.metadata, matched := m.insert "_path" path } := by
          injection hres with h3
          exact h3.symm
        rw [this]
      · intro b' hb' c' hc'
        cases hb'
      · intro c' hc' hp
        have := hmax c' hc' hp
        rw [rle, cmp_priority_ne_gt] at this
        exact this

/-- C1 witness: the amended selection rule instantiated on the
counterexample router — the hash bucket is the first bucket and its
passing exact route outranks every passing candidate of that bucket,
even though a later tree bucket holds a higher-priority passing route. -/
theorem c1_witness :
    ∃ bs1 b bs2 c, matchBuckets c1router "/api/users" = bs1 ++ b :: bs2 ∧
      c ∈ b ∧
      passes c "/api/users" (normalizeOpts RadixMatchOpts.default) = true ∧
      (MatchResult.mk "exact-meta" [("_path", "/api/users")]).metadata = c.metadata ∧
      (∀ b' ∈ bs1, ∀ c' ∈ b',
        passes c' "/api/users" (normalizeOpts RadixMatchOpts.default) = false) ∧
      (∀ c' ∈ b,
        passes c' "/api/users" (normalizeOpts RadixMatchOpts.default) = true →
        c'.priority < c.priority ∨
          (c'.priority = c.priority ∧ c'.path_org.length ≤ c.path_org.length)) :=
  (c1_match_first_passing_bucket c1router "/api/users" RadixMatchOpts.default
      (by decide)).2
    { metadata := "exact-meta", matched := [("_path", "/api/users")] } (by decide)

/-! ### C7: add then delete restores the router -/

/-- Filtering commutes with ordered insertion into a sorted list. -/
theorem orderedInsert_filter (p : RouteOpts → Bool) (a : RouteOpts)
    (l : List RouteOpts) (hl : l.Pairwise rle) :
    (List.orderedInsert rle a l).filter p =
      (if p a then List.orderedInsert rle a (l.filter p) else l.filter p) := by
  induction l with
  | nil => by_cases hp : p a <;> simp [List.orderedInsert, hp]
  | cons b l ih =>
    simp only [List.orderedInsert]
    by_cases hab : rle a b
    · rw [if_pos hab]
      by_cases hp : p a
      · rw [if_pos hp]
        rw [List.filter_cons_of_pos (by simpa using hp)]
        rcases hfl : (b :: l).filter p with _ | ⟨y, ys⟩
        · simp [List.orderedInsert]
        · have hy : y ∈ (b :: l).filter p := by
            rw [hfl]
            exact List.mem_cons_self y ys
          have hy2 : y ∈ b :: l := List.mem_of_mem_filter hy
          have hay : rle a y := by
            rcases List.mem_cons.mp hy2 with rfl | hy3
            · exact hab
            · exact rle_trans a b y hab ((List.pairwise_cons.mp hl).1 y hy3)
          simp only [List.orderedInsert, if_pos hay]
      · rw [if_neg hp]
        rw [List.filter_cons_of_neg (by simpa using hp)]
    · rw [if_neg hab]
      have ihl := ih (List.pairwise_cons.mp hl).2
      by_cases hp : p a
      · rw [if_pos hp]
        rw [if_pos hp] at ihl
        by_cases hpb : p b
        · simp only [List.filter_cons, hpb, if_true, ihl]
          simp only [List.orderedInsert, if_neg hab]
        · simp [List.filter_cons, hpb, ihl]
      · rw [if_neg hp]
        rw [if_neg hp] at ihl
        simp [List.filter_cons, ihl]

/-- Filtering commutes with insertion sort. -/
theorem insertionSort_filter (p : RouteOpts → Bool) (l : List RouteOpts) :
    (List.insertionSort rle l).filter p = List.insertionSort rle (l.filter p) := by
  induction l with
  | nil => rfl
  | cons a l ih =>
    rw [List.insertionSort,
      orderedInsert_filter p a _ (List.sorted_insertionSort rle l), ih]
    by_cases hp : p a
    · simp [List.filter_cons, hp, List.insertionSort]
    · simp [List.filter_cons, hp]

/-- `sortRoutes` and filtering commute; a sorted list is fixed. -/
theorem sortRoutes_filter (p : RouteOpts → Bool) (l : List RouteOpts) :
    (sortRoutes l).filter p = sortRoutes (l.filter p) :=
  insertionSort_filter p l

theorem sortRoutes_sorted_eq (l : List RouteOpts) (h : l.Pairwise rle) :
    sortRoutes l = l :=
  List.Sorted.insertionSort_eq h

theorem sortRoutes_ne_nil (l : List RouteOpts) (a : RouteOpts) :
    sortRoutes (l ++ [a]) ≠ [] := by
  intro hcon
  have := congrArg List.length hcon
  rw [sortRoutes, List.length_insertionSort] at this
  simp at this

/-- Point lookup after `alSet`. -/
theorem alGet_alSet {κ v : Type} [DecidableEq κ] (m : List (κ × v)) (k : κ)
    (val : v) (k' : κ) :
    alGet (alSet m k val) k' = if k' = k then some val else alGet m k' := by
  unfold alSet alGet
  rw [List.find?_cons]
  by_cases hk : k' = k
  · rw [show (decide ((k, val).1 = k')) = true from by simp [hk], if_pos hk]
    rfl
  · rw [show (decide ((k, val).1 = k')) = false from by simp [Ne.symm hk], if_neg hk]
    congr 1
    induction m with
    | nil => rfl
    | cons e es ih =>
      by_cases he : e.1 = k
      · rw [List.filter_cons_of_neg (by simpa using he), List.find?_cons,
          show (decide (e.1 = k')) = false from by simp [he, Ne.symm hk]]
        exact ih
      · rw [List.filter_cons_of_pos (by simpa using he), List.find?_cons,
          List.find?_cons]
        by_cases hek' : e.1 = k'
        · rw [show (decide (e.1 = k')) = true from by simpa using hek']
        · rw [show (decide (e.1 = k')) = false from by simpa using hek']
          exact ih

/-- Point lookup after `alRemove`. -/
theorem alGet_alRemove {κ v : Type} [DecidableEq κ] (m : List (κ × v)) (k : κ)
    (k' : κ) :
    alGet (alRemove m k) k' = if k' = k then none else alGet m k' := by
  induction m with
  | nil => by_cases h : k' = k <;> simp [alGet, alRemove, h]
  | cons e es ih =>
    unfold alRemove at ih ⊢
    by_cases he : e.1 = k
    · rw [List.filter_cons_of_neg (by simpa using he)]
      rw [ih]
      by_cases hk : k' = k
      · simp [hk]
      · have : ¬ (e.1 = k') := by
          rw [he]
          exact Ne.symm hk
        simp [hk, alGet, List.find?_cons, this]
    · rw [List.filter_cons_of_pos (by simpa using he)]
      by_cases hek' : e.1 = k'
      · by_cases hk : k' = k
        · exact absurd (hek'.trans hk) he
        · simp [hk, alGet, List.find?_cons, hek']
      · simp only [alGet, List.find?_cons,
          show (decide (e.1 = k')) = false from by simpa using hek']
        have := ih
        simp only [alGet] at this
        rw [this]

/-- A key absent from every entry reads as `none`. -/
theorem alGet_eq_none_of_absent {κ v : Type} [DecidableEq κ]
    (m : List (κ × v)) (k : κ) (h : ∀ e ∈ m, e.1 ≠ k) : alGet m k = none := by
  unfold alGet
  rw [List.find?_eq_none.mpr]
  · rfl
  · intro e he
    simpa using h e he

/-- A successful lookup exhibits its entry. -/
theorem alGet_some_mem {κ v : Type} [DecidableEq κ] (m : List (κ × v)) (k : κ)
    (val : v) (h : alGet m k = some val) : (k, val) ∈ m := by
  unfold alGet at h
  rcases hf : m.find? (fun e => e.1 = k) with _ | e
  · rw [hf] at h
    simp at h
  · rw [hf] at h
    have hmem := List.mem_of_find?_eq_some hf
    have hkey : e.1 = k := by simpa using List.find?_some hf
    simp only [Option.map_some'] at h
    have : e = (k, val) := by
      cases e
      simp_all
    rw [this] at hmem
    exact hmem

/-- Tree lookup over an append is the left-biased alternative. -/
theorem treeFind_append (t₁ t₂ : RadixTreeRaw) (k : String) :
    RadixTreeRaw.find (t₁ ++ t₂) k =
      (RadixTreeRaw.find t₁ k).or (RadixTreeRaw.find t₂ k) := by
  unfold RadixTreeRaw.find
  rw [List.find?_append]
  cases t₁.find? (fun e => decide (e.1 = k)) <;>
    cases t₂.find? (fun e => decide (e.1 = k)) <;> rfl

/-- Tree lookup fails exactly when no entry holds the key. -/
theorem treeFind_eq_none_iff (t : RadixTreeRaw) (k : String) :
    RadixTreeRaw.find t k = none ↔ ∀ kv ∈ t, kv.1 ≠ k := by
  unfold RadixTreeRaw.find
  simp [List.find?_eq_none]

/-- A successful tree lookup exhibits its entry. -/
theorem treeFind_some_mem (t : RadixTreeRaw) (k : String) (i : Nat)
    (h : RadixTreeRaw.find t k = some i) : (k, i) ∈ t := by
  unfold RadixTreeRaw.find at h
  rcases hf : t.find? (fun e => e.1 = k) with _ | e
  · rw [hf] at h
    simp at h
  · rw [hf] at h
    have hmem := List.mem_of_find?_eq_some hf
    have hkey : e.1 = k := by simpa using List.find?_some hf
    simp only [Option.map_some'] at h
    have : e = (k, i) := by
      cases e
      simp_all
    rw [this] at hmem
    exact hmem

/-- Inserting an existing key fails and keeps the tree. -/
theorem treeInsert_existing (t : RadixTreeRaw) (k : String) (idx i : Nat)
    (h : RadixTreeRaw.find t k = some i) :
    RadixTreeRaw.insert t k idx = (false, t) := by
  unfold RadixTreeRaw.insert
  rw [if_pos]
  exact List.any_eq_true.mpr ⟨(k, i), treeFind_some_mem t k i h, by simp⟩

/-- Inserting a fresh key succeeds and appends the entry. -/
theorem treeInsert_fresh (t : RadixTreeRaw) (k : String) (idx : Nat)
    (h : RadixTreeRaw.find t k = none) :
    RadixTreeRaw.insert t k idx = (true, t ++ [(k, idx)]) := by
  unfold RadixTreeRaw.insert
  rw [if_neg]
  simp only [List.any_eq_true, not_exists]
  intro e
  rw [not_and]
  intro he
  simpa using (treeFind_eq_none_iff t k).mp h e he

/-- Distinct keys of a payload-distinct tree carry distinct payloads. -/
theorem tree_payload_inj (t : RadixTreeRaw) (hnd : (t.map Prod.snd).Nodup)
    (k₁ k₂ : String) (i : Nat) (h₁ : (k₁, i) ∈ t) (h₂ : (k₂, i) ∈ t) :
    k₁ = k₂ := by
  have := List.inj_on_of_nodup_map hnd h₁ h₂ rfl
  exact congrArg Prod.fst this

/-- The id recorded by `process_route` is the descriptor's id. -/
theorem processRoute_id (p : String) (d : RadixNode) :
    (RadixRouter.process_route p d).id = d.id := rfl

/-! Well-formedness of a router state, as maintained by the public
lifecycle: candidate buckets are non-empty and sorted, `match_data` keys
never exceed the allocation counter, every tree payload has a
`match_data` bucket, and tree payloads are pairwise distinct. -/
def WF (r : RadixRouter) : Prop :=
  (∀ e ∈ r.hash_path, 0 < e.2.length) ∧
  (∀ e ∈ r.hash_path, e.2.Pairwise rle) ∧
  (∀ e ∈ r.match_data, 0 < e.2.length) ∧
  (∀ e ∈ r.match_data, e.2.Pairwise rle) ∧
  (∀ e ∈ r.match_data, e.1 ≤ r.match_data_index) ∧
  (∀ kv ∈ r.tree, (alGet r.match_data kv.2).isSome = true) ∧
  (r.tree.map Prod.snd).Nodup

instance (r : RadixRouter) : Decidable (WF r) := by
  unfold WF
  infer_instance

/-- The descriptor id occurs in no stored candidate of `r`. -/
def IdFresh (r : RadixRouter) (id : String) : Prop :=
  (∀ e ∈ r.hash_path, ∀ x ∈ e.2, x.id ≠ id) ∧
  (∀ e ∈ r.match_data, ∀ x ∈ e.2, x.id ≠ id)

instance (r : RadixRouter) (id : String) : Decidable (IdFresh r id) := by
  unfold IdFresh
  infer_instance

/-- The tree key a path of descriptor `d` maps to. -/
def keyOf (d : RadixNode) (p : String) : String :=
  (RadixRouter.process_route p d).path

/-- Whether the path registers in the exact-path hash index. -/
def isEqKey (d : RadixNode) (p : String) : Prop :=
  (RadixRouter.process_route p d).path_op = PathOp.Equal

/-- The hash keys the paths `ps` of `d` touch. -/
def eqKeys (d : RadixNode) (ps : List String) (k : String) : Prop :=
  ∃ p ∈ ps, isEqKey d p ∧ k = keyOf d p

/-- The tree keys the paths `ps` of `d` touch. -/
def stKeys (d : RadixNode) (ps : List String) (k : String) : Prop :=
  ∃ p ∈ ps, ¬ isEqKey d p ∧ k = keyOf d p

/-- The mid-lifecycle invariant tying the working state `s` back to the
base state `r₀` while descriptor `d` is partially registered. `SE` holds
at the hash keys currently carrying candidates of `d`, `ST` at the tree
keys currently carrying them, and `F` lists the tree entries freshly
allocated for `d` (key, payload index), in insertion order. -/
structure RInv (r₀ : RadixRouter) (d : RadixNode) (SE ST : String → Prop)
    (F : List (String × Nat)) (s : RadixRouter) : Prop where
  hashU : ∀ k, ¬ SE k → alGet s.hash_path k = alGet r₀.hash_path k
  hashA : ∀ k, SE k → ∃ B, alGet s.hash_path k = some B ∧ B ≠ [] ∧
    B.filter (fun x => x.id ≠ d.id) = (alGet r₀.hash_path k).getD []
  nLe : r₀.match_data_index ≤ s.match_data_index
  treeEq : s.tree = r₀.tree ++ F
  fProps : ∀ kv ∈ F, ST kv.1 ∧ RadixTreeRaw.find r₀.tree kv.1 = none ∧
    kv.2 ≤ s.match_data_index ∧ r₀.match_data_index < kv.2 ∧
    ∃ B, alGet s.match_data kv.2 = some B ∧ B ≠ [] ∧
      B.filter (fun x => x.id ≠ d.id) = []
  fKeyNodup : (F.map Prod.fst).Nodup
  fIdxNodup : (F.map Prod.snd).Nodup
  mdA : ∀ k, ST k → ∀ i, RadixTreeRaw.find r₀.tree k = some i →
    ∃ B, alGet s.match_data i = some B ∧ B ≠ [] ∧
      B.filter (fun x => x.id ≠ d.id) = (alGet r₀.match_data i).getD []
  mdU : ∀ i, (∀ kv ∈ F, kv.2 ≠ i) →
    (∀ k, ST k → RadixTreeRaw.find r₀.tree k ≠ some i) →
    alGet s.match_data i = alGet r₀.match_data i
  mdB : ∀ e ∈ s.match_data, e.1 ≤ s.match_data_index

/-- `RInv` only depends on the key predicates extensionally. -/
theorem RInv_congr (r₀ : RadixRouter) (d : RadixNode)
    (SE ST SE' ST' : String → Prop) (F : List (String × Nat))
    (s : RadixRouter) (hSE : ∀ k, SE k ↔ SE' k) (hST : ∀ k, ST k ↔ ST' k)
    (h : RInv r₀ d SE ST F s) : RInv r₀ d SE' ST' F s := by
  refine ⟨?_, ?_, h.nLe, h.treeEq, ?_, h.fKeyNodup, h.fIdxNodup, ?_, ?_, h.mdB⟩
  · intro k hk
    exact h.hashU k (fun hc => hk ((hSE k).mp hc))
  · intro k hk
    exact h.hashA k ((hSE k).mpr hk)
  · intro kv hkv
    obtain ⟨h1, h2⟩ := h.fProps kv hkv
    exact ⟨(hST kv.1).mp h1, h2⟩
  · intro k hk
    exact h.mdA k ((hST k).mpr hk)
  · intro i hF hT
    exact h.mdU i hF (fun k hk => hT k ((hST k).mp hk))

/-- The initial state satisfies the invariant with nothing pending. -/
theorem RInv_init (r₀ : RadixRouter) (d : RadixNode) (hwf : WF r₀) :
    RInv r₀ d (fun _ => False) (fun _ => False) [] r₀ := by
  refine ⟨fun k _ => rfl, fun k hk => absurd hk (fun h => h), le_refl _,
    (List.append_nil _).symm, fun kv hkv => absurd hkv (List.not_mem_nil kv),
    List.nodup_nil, List.nodup_nil, fun k hk => absurd hk (fun h => h),
    fun i _ _ => rfl, hwf.2.2.2.2.1⟩

/-- Buckets of a candidate store are sorted if every entry is. -/
theorem alGet_bucket_sorted {κ : Type} [DecidableEq κ]
    (m : List (κ × List RouteOpts)) (hs : ∀ e ∈ m, e.2.Pairwise rle) (k : κ) :
    ((alGet m k).getD []).Pairwise rle := by
  cases h : alGet m k
  · simp
  · simp only [Option.getD_some]
    exact hs _ (alGet_some_mem _ _ _ h)

/-- Filtering an id that occurs nowhere in a list keeps the list. -/
theorem bucket_filter_of_fresh (B : List RouteOpts) (id : String)
    (hall : ∀ x ∈ B, x.id ≠ id) : B.filter (fun x => x.id ≠ id) = B :=
  List.filter_eq_self.mpr (fun a ha => by simpa using hall a ha)

/-- Filtering an id absent from every bucket of a store keeps the bucket. -/
theorem alGet_bucket_filter {κ : Type} [DecidableEq κ]
    (m : List (κ × List RouteOpts)) (id : String)
    (hall : ∀ e ∈ m, ∀ x ∈ e.2, x.id ≠ id) (k : κ) :
    ((alGet m k).getD []).filter (fun x => x.id ≠ id) = (alGet m k).getD [] := by
  cases h : alGet m k
  · simp
  · simp only [Option.getD_some]
    exact bucket_filter_of_fresh _ _ (hall _ (alGet_some_mem _ _ _ h))

/-- Appending one candidate with the pending id and re-sorting leaves the
id-free part of the bucket unchanged. -/
theorem pending_bucket_filter (C B : List RouteOpts) (o : RouteOpts)
    (id : String) (ho : o.id = id) (hC : C.Pairwise rle)
    (hB : B.filter (fun x => x.id ≠ id) = C) :
    (sortRoutes (B ++ [o])).filter (fun x => x.id ≠ id) = C := by
  rw [sortRoutes_filter, List.filter_append, hB]
  have h1 : [o].filter (fun x => x.id ≠ id) = [] := by simp [ho]
  rw [h1, List.append_nil, sortRoutes_sorted_eq C hC]

/-- A payload reachable through the base tree respects the base counter. -/
theorem md_key_le (r₀ : RadixRouter) (hwf : WF r₀) (k : String) (i : Nat)
    (h : RadixTreeRaw.find r₀.tree k = some i) : i ≤ r₀.match_data_index := by
  have hmem := treeFind_some_mem _ _ _ h
  have hsome := hwf.2.2.2.2.2.1 _ hmem
  obtain ⟨L, hL⟩ := Option.isSome_iff_exists.mp hsome
  exact hwf.2.2.2.2.1 _ (alGet_some_mem _ _ _ hL)

/-- A bucket read from a store whose buckets are non-empty is non-empty. -/
theorem alGet_bucket_ne_nil {κ : Type} [DecidableEq κ]
    (m : List (κ × List RouteOpts)) (hne : ∀ e ∈ m, 0 < e.2.length) (k : κ)
    (B : List RouteOpts) (h : alGet m k = some B) : B ≠ [] := by
  have := hne _ (alGet_some_mem _ _ _ h)
  intro hcon
  rw [hcon] at this
  simp at this

/-- One `insert_route` step of the add phase: a successful insertion
extends the pending key predicates by the path's key and preserves the
mid-lifecycle invariant. -/
theorem insert_step (r₀ : RadixRouter) (d : RadixNode) (p : String)
    (SE ST : String → Prop) (F : List (String × Nat)) (s : RadixRouter)
    (hwf : WF r₀) (hfresh : IdFresh r₀ d.id)
    (hinv : RInv r₀ d SE ST F s)
    (hflag : (RadixRouter.insert_route s p d).2 = true) :
    ∃ F', RInv r₀ d
      (fun k => SE k ∨ (isEqKey d p ∧ k = keyOf d p))
      (fun k => ST k ∨ (¬ isEqKey d p ∧ k = keyOf d p))
      F' (RadixRouter.insert_route s p d).1 := by
  have hwfc := hwf
  obtain ⟨hwfHne, hwfHs, hwfMne, hwfMs, hwfMb, hwfTc, hwfTn⟩ := hwfc
  by_cases ho : (RadixRouter.process_route p d).path_op = PathOp.Equal
  · -- exact-path branch: only the hash bucket at the key changes
    have hres : RadixRouter.insert_route s p d =
        ({ s with hash_path := alSet s.hash_path (RadixRouter.process_route p d).path (sortRoutes (((alGet s.hash_path (RadixRouter.process_route p d).path).getD []) ++ [RadixRouter.process_route p d])) }, true) := by
      simp only [RadixRouter.insert_route]
      rw [if_pos ho]
    rw [hres]
    refine ⟨F, ?_, ?_, hinv.nLe, hinv.treeEq, ?_, hinv.fKeyNodup,
      hinv.fIdxNodup, ?_, ?_, hinv.mdB⟩
    · intro k hk
      push_neg at hk
      have hkK : ¬ (k = (RadixRouter.process_route p d).path) := hk.2 ho
      show alGet (alSet s.hash_path _ _) k = _
      rw [alGet_alSet, if_neg hkK]
      exact hinv.hashU k hk.1
    · intro k hk
      by_cases hkK : k = (RadixRouter.process_route p d).path
      · subst hkK
        refine ⟨sortRoutes (((alGet s.hash_path (RadixRouter.process_route p d).path).getD []) ++ [RadixRouter.process_route p d]),
          by rw [alGet_alSet, if_pos rfl], sortRoutes_ne_nil _ _, ?_⟩
        apply pending_bucket_filter _ _ _ _ (processRoute_id p d)
          (alGet_bucket_sorted _ hwfHs _)
        by_cases hSE : SE (RadixRouter.process_route p d).path
        · obtain ⟨B, hB1, _, hB3⟩ := hinv.hashA _ hSE
          rw [hB1, Option.getD_some]
          exact hB3
        · rw [hinv.hashU _ hSE]
          exact alGet_bucket_filter _ _ hfresh.1 _
      · rcases hk with hk | ⟨_, hkK2⟩
        · rw [alGet_alSet, if_neg hkK]
          exact hinv.hashA k hk
        · exact absurd hkK2 hkK
    · intro kv hkv
      obtain ⟨h1, h2⟩ := hinv.fProps kv hkv
      exact ⟨Or.inl h1, h2⟩
    · intro k hk i hi
      rcases hk with hk | ⟨hne, _⟩
      · exact hinv.mdA k hk i hi
      · exact absurd ho hne
    · intro i hF hT
      exact hinv.mdU i hF (fun k hk => hT k (Or.inl hk))
  · -- prefix branch: tree and `match_data` change
    rcases hfind : RadixTreeRaw.find s.tree (RadixRouter.process_route p d).path
      with _ | idx
    · -- fresh tree key: a new index is allocated
      have hins := treeInsert_fresh s.tree (RadixRouter.process_route p d).path
        (s.match_data_index + 1) hfind
      have hres : RadixRouter.insert_route s p d =
          ({ tree := s.tree ++
              [((RadixRouter.process_route p d).path, s.match_data_index + 1)],
             match_data := alSet s.match_data (s.match_data_index + 1)
               [RadixRouter.process_route p d],
             match_data_index := s.match_data_index + 1,
             hash_path := s.hash_path }, true) := by
        simp only [RadixRouter.insert_route]
        rw [if_neg ho, hfind]
        simp only [RadixRouter.insert_route_new, hins]
      have hfind0 : RadixTreeRaw.find r₀.tree
          (RadixRouter.process_route p d).path = none := by
        rw [hinv.treeEq, treeFind_append] at hfind
        cases h0 : RadixTreeRaw.find r₀.tree (RadixRouter.process_route p d).path
        · rfl
        · rw [h0] at hfind
          simp [Option.or] at hfind
      have hfindF : RadixTreeRaw.find F
          (RadixRouter.process_route p d).path = none := by
        rw [hinv.treeEq, treeFind_append, hfind0] at hfind
        exact hfind
      rw [hres]
      refine ⟨F ++ [((RadixRouter.process_route p d).path, s.match_data_index + 1)],
        ?_, ?_, ?_, ?_, ?_, ?_, ?_, ?_, ?_, ?_⟩
      · intro k hk
        push_neg at hk
        exact hinv.hashU k hk.1
      · intro k hk
        rcases hk with hk | ⟨hc, _⟩
        · exact hinv.hashA k hk
        · exact absurd hc ho
      · exact le_trans hinv.nLe (Nat.le_succ _)
      · show s.tree ++ _ = _
        rw [hinv.treeEq, List.append_assoc]
      · intro kv hkv
        rcases List.mem_append.mp hkv with hkv | hkv
        · obtain ⟨g1, g2, g3, g4, B, gB1, gB2, gB3⟩ := hinv.fProps kv hkv
          refine ⟨Or.inl g1, g2, le_trans g3 (Nat.le_succ _), g4, B, ?_, gB2, gB3⟩
          have hne : kv.2 ≠ s.match_data_index + 1 := by omega
          rw [alGet_alSet, if_neg hne]
          exact gB1
        · have hkv' : kv = ((RadixRouter.process_route p d).path,
              s.match_data_index + 1) := by simpa using hkv
          subst hkv'
          refine ⟨Or.inr ⟨ho, rfl⟩, hfind0, le_refl _,
            Nat.lt_succ_of_le hinv.nLe, [RadixRouter.process_route p d],
            by rw [alGet_alSet, if_pos rfl], by simp, by simp [processRoute_id]⟩
      · simp only [List.map_append, List.map_cons, List.map_nil]
        rw [List.nodup_append]
        refine ⟨hinv.fKeyNodup, List.nodup_singleton _, ?_⟩
        intro a ha hmem
        have ha2 : a = (RadixRouter.process_route p d).path := by simpa using hmem
        subst ha2
        obtain ⟨kv, hkvF, hkv1⟩ := List.mem_map.mp ha
        exact (treeFind_eq_none_iff F _).mp hfindF kv hkvF hkv1
      · simp only [List.map_append, List.map_cons, List.map_nil]
        rw [List.nodup_append]
        refine ⟨hinv.fIdxNodup, List.nodup_singleton _, ?_⟩
        intro a ha hmem
        have ha2 : a = s.match_data_index + 1 := by simpa using hmem
        obtain ⟨kv, hkvF, hkv2⟩ := List.mem_map.mp ha
        have hle := (hinv.fProps kv hkvF).2.2.1
        omega
      · intro k hk i hi
        rcases hk with hk | ⟨_, hkK⟩
        · have hile : i ≤ r₀.match_data_index := md_key_le r₀ hwf k i hi
          have hne : i ≠ s.match_data_index + 1 := by
            have := hinv.nLe
            omega
          rw [alGet_alSet, if_neg hne]
          exact hinv.mdA k hk i hi
        · rw [hkK] at hi
          have h0 : RadixTreeRaw.find r₀.tree (keyOf d p) = none := hfind0
          rw [h0] at hi
          simp at hi
      · intro i hF hT
        have h1 : s.match_data_index + 1 ≠ i :=
          hF _ (List.mem_append_right _ (List.mem_singleton_self _))
        rw [alGet_alSet, if_neg (Ne.symm h1)]
        exact hinv.mdU i (fun kv hkv => hF kv (List.mem_append_left _ hkv))
          (fun k hk => hT k (Or.inl hk))
      · intro e he
        rcases alSet_mem s.match_data _ _ e he with he2 | he2
        · rw [he2]
        · exact le_trans (hinv.mdB e he2) (Nat.le_succ _)
    · -- existing tree key
      rcases hmg : alGet s.match_data idx with _ | routes
      · -- dangling index: the tree insert bails, contradicting success
        exfalso
        have hres : (RadixRouter.insert_route s p d).2 = false := by
          simp only [RadixRouter.insert_route]
          rw [if_neg ho]
          simp only [hfind, hmg, RadixRouter.insert_route_new,
            treeInsert_existing s.tree _ _ idx hfind]
        rw [hres] at hflag
        simp at hflag
      · -- existing bucket: only `match_data[idx]` changes
        have hres : RadixRouter.insert_route s p d =
            ({ s with match_data := alSet s.match_data idx (sortRoutes (routes ++ [RadixRouter.process_route p d])) }, true) := by
          simp only [RadixRouter.insert_route]
          rw [if_neg ho]
          simp only [hfind, hmg]
        rw [hres]
        rcases hf0 : RadixTreeRaw.find r₀.tree
            (RadixRouter.process_route p d).path with _ | i0
        · -- the key was freshly allocated earlier in this add phase
          have hfF : RadixTreeRaw.find F
              (RadixRouter.process_route p d).path = some idx := by
            rw [hinv.treeEq, treeFind_append, hf0] at hfind
            exact hfind
          have hkvF : ((RadixRouter.process_route p d).path, idx) ∈ F :=
            treeFind_some_mem _ _ _ hfF
          obtain ⟨hST0, hfind00, hle0, hgt0, B, hB1, hB2, hB3⟩ :=
            hinv.fProps _ hkvF
          have hST : ST (RadixRouter.process_route p d).path := hST0
          have hle : idx ≤ s.match_data_index := hle0
          have hgt : r₀.match_data_index < idx := hgt0
          have hB1' : alGet s.match_data idx = some B := hB1
          have hB3' : B.filter (fun x => x.id ≠ d.id) = [] := hB3
          have hrB : routes = B := by
            rw [hmg] at hB1'
            exact Option.some.inj hB1'
          refine ⟨F, ?_, ?_, hinv.nLe, hinv.treeEq, ?_, hinv.fKeyNodup,
            hinv.fIdxNodup, ?_, ?_, ?_⟩
          · intro k hk
            push_neg at hk
            exact hinv.hashU k hk.1
          · intro k hk
            rcases hk with hk | ⟨hc, _⟩
            · exact hinv.hashA k hk
            · exact absurd hc ho
          · intro kv hkv
            by_cases hkvidx : kv.2 = idx
            · have hkveq : kv = ((RadixRouter.process_route p d).path, idx) :=
                List.inj_on_of_nodup_map hinv.fIdxNodup hkv hkvF hkvidx
              subst hkveq
              refine ⟨Or.inl hST0, hfind00, hle0, hgt0,
                sortRoutes (routes ++ [RadixRouter.process_route p d]),
                by rw [alGet_alSet, if_pos rfl], sortRoutes_ne_nil _ _, ?_⟩
              apply pending_bucket_filter [] routes _ _ (processRoute_id p d)
                List.Pairwise.nil
              rw [hrB]
              exact hB3'
            · obtain ⟨g1, g2, g3, g4, C, gC1, gC2, gC3⟩ := hinv.fProps kv hkv
              refine ⟨Or.inl g1, g2, g3, g4, C, ?_, gC2, gC3⟩
              rw [alGet_alSet, if_neg hkvidx]
              exact gC1
          · intro k hk i hi
            have hile : i ≤ r₀.match_data_index := md_key_le r₀ hwf k i hi
            have hne : i ≠ idx := by omega
            rcases hk with hk | ⟨_, hkK⟩
            · rw [alGet_alSet, if_neg hne]
              exact hinv.mdA k hk i hi
            · rw [hkK] at hi
              have h0 : RadixTreeRaw.find r₀.tree (keyOf d p) = none := hf0
              rw [h0] at hi
              simp at hi
          · intro i hF hT
            have hne : idx ≠ i := hF _ hkvF
            rw [alGet_alSet, if_neg (Ne.symm hne)]
            exact hinv.mdU i hF (fun k hk => hT k (Or.inl hk))
          · intro e he
            rcases alSet_mem s.match_data _ _ e he with he2 | he2
            · rw [he2]
              exact hle
            · exact hinv.mdB e he2
        · -- the key already lives in the base tree with payload `i0`
          have hidx : idx = i0 := by
            rw [hinv.treeEq, treeFind_append, hf0] at hfind
            exact (Option.some.inj hfind).symm
          subst hidx
          have hi0mem := treeFind_some_mem r₀.tree _ idx hf0
          have hi0le : idx ≤ r₀.match_data_index := md_key_le r₀ hwf _ idx hf0
          obtain ⟨L, hL⟩ := Option.isSome_iff_exists.mp (hwfTc _ hi0mem)
          have hL' : alGet r₀.match_data idx = some L := hL
          have hBfil : routes.filter (fun x => x.id ≠ d.id) =
              (alGet r₀.match_data idx).getD [] := by
            by_cases hSTK : ST (RadixRouter.process_route p d).path
            · obtain ⟨B, hB1, hB2, hB3⟩ := hinv.mdA _ hSTK idx hf0
              have hrB : routes = B := by
                rw [hmg] at hB1
                exact Option.some.inj hB1
              rw [hrB]
              exact hB3
            · have hmdU : alGet s.match_data idx = alGet r₀.match_data idx := by
                apply hinv.mdU
                · intro kv hkv
                  have g4 := (hinv.fProps kv hkv).2.2.2.1
                  omega
                · intro k hk hfk
                  have hkK : k = (RadixRouter.process_route p d).path :=
                    tree_payload_inj r₀.tree hwfTn k _ idx
                      (treeFind_some_mem _ _ _ hfk) hi0mem
                  rw [hkK] at hk
                  exact absurd hk hSTK
              have hroutes : routes = L := by
                rw [hmdU, hL'] at hmg
                exact (Option.some.inj hmg).symm
              rw [hroutes, hL', Option.getD_some]
              exact bucket_filter_of_fresh L d.id
                (hfresh.2 _ (alGet_some_mem _ _ _ hL'))
          refine ⟨F, ?_, ?_, hinv.nLe, hinv.treeEq, ?_, hinv.fKeyNodup,
            hinv.fIdxNodup, ?_, ?_, ?_⟩
          · intro k hk
            push_neg at hk
            exact hinv.hashU k hk.1
          · intro k hk
            rcases hk with hk | ⟨hc, _⟩
            · exact hinv.hashA k hk
            · exact absurd hc ho
          · intro kv hkv
            obtain ⟨g1, g2, g3, g4, C, gC1, gC2, gC3⟩ := hinv.fProps kv hkv
            have hne : kv.2 ≠ idx := by omega
            refine ⟨Or.inl g1, g2, g3, g4, C, ?_, gC2, gC3⟩
            rw [alGet_alSet, if_neg hne]
            exact gC1
          · intro k hk i hi
            by_cases hii : i = idx
            · subst hii
              refine ⟨sortRoutes (routes ++ [RadixRouter.process_route p d]),
                by rw [alGet_alSet, if_pos rfl], sortRoutes_ne_nil _ _,
                pending_bucket_filter _ routes _ _ (processRoute_id p d)
                  (alGet_bucket_sorted _ hwfMs _) hBfil⟩
            · rcases hk with hk | ⟨_, hkK⟩
              · rw [alGet_alSet, if_neg hii]
                exact hinv.mdA k hk i hi
              · rw [hkK] at hi
                have h0 : RadixTreeRaw.find r₀.tree (keyOf d p) = some idx := hf0
                rw [h0] at hi
                exact absurd (Option.some.inj hi).symm hii
          · intro i hF hT
            have hne : i ≠ idx := by
              intro he
              subst he
              exact hT _ (Or.inr ⟨ho, rfl⟩) hf0
            rw [alGet_alSet, if_neg hne]
            exact hinv.mdU i hF (fun k hk => hT k (Or.inl hk))
          · intro e he
            rcases alSet_mem s.match_data _ _ e he with he2 | he2
            · rw [he2]
              exact le_trans hi0le hinv.nLe
            · exact hinv.mdB e he2

/-- A removal step on an exact-path key: if the hash store is restored at
the key and untouched elsewhere, the invariant drops the key. -/
theorem remove_hash_inv (r₀ : RadixRouter) (d : RadixNode) (p : String)
    (SE ST : String → Prop) (F : List (String × Nat)) (s s' : RadixRouter)
    (hinv : RInv r₀ d SE ST F s) (ho : isEqKey d p)
    (ht : s'.tree = s.tree) (hm : s'.match_data = s.match_data)
    (hn : s'.match_data_index = s.match_data_index)
    (hrest : alGet s'.hash_path (keyOf d p) = alGet r₀.hash_path (keyOf d p))
    (hunt : ∀ k, k ≠ keyOf d p →
      alGet s'.hash_path k = alGet s.hash_path k) :
    RInv r₀ d (fun k => SE k ∧ ¬ (isEqKey d p ∧ k = keyOf d p))
      (fun k => ST k ∧ ¬ (¬ isEqKey d p ∧ k = keyOf d p)) F s' := by
  refine ⟨?_, ?_, ?_, ?_, ?_, hinv.fKeyNodup, hinv.fIdxNodup, ?_, ?_, ?_⟩
  · intro k hk
    by_cases hkK : k = keyOf d p
    · rw [hkK]
      exact hrest
    · rw [hunt k hkK]
      apply hinv.hashU
      intro hSEk
      exact hk ⟨hSEk, fun hc => hkK hc.2⟩
  · intro k hk
    have hkK : k ≠ keyOf d p := fun hc => hk.2 ⟨ho, hc⟩
    rw [hunt k hkK]
    exact hinv.hashA k hk.1
  · rw [hn]
    exact hinv.nLe
  · rw [ht]
    exact hinv.treeEq
  · intro kv hkv
    obtain ⟨g1, g2, g3, g4, B, gB⟩ := hinv.fProps kv hkv
    rw [hm, hn]
    exact ⟨⟨g1, fun hc => hc.1 ho⟩, g2, g3, g4, B, gB⟩
  · intro k hk i hi
    rw [hm]
    exact hinv.mdA k hk.1 i hi
  · intro i hF hT
    rw [hm]
    exact hinv.mdU i hF (fun k hk => hT k ⟨hk, fun hc => hc.1 ho⟩)
  · intro e he
    rw [hm] at he
    rw [hn]
    exact hinv.mdB e he

/-- A removal step on a prefix key already present in the base tree: the
`match_data` bucket is restored at its payload and untouched elsewhere,
and the invariant drops the key. -/
theorem remove_tree_old_inv (r₀ : RadixRouter) (d : RadixNode) (p : String)
    (SE ST : String → Prop) (F : List (String × Nat)) (s s' : RadixRouter)
    (hwf : WF r₀) (hinv : RInv r₀ d SE ST F s) (ho : ¬ isEqKey d p)
    (idx : Nat) (hf0 : RadixTreeRaw.find r₀.tree (keyOf d p) = some idx)
    (hh : s'.hash_path = s.hash_path) (ht : s'.tree = s.tree)
    (hn : s'.match_data_index = s.match_data_index)
    (hrest : alGet s'.match_data idx = alGet r₀.match_data idx)
    (hunt : ∀ i, i ≠ idx → alGet s'.match_data i = alGet s.match_data i)
    (hmem : ∀ e ∈ s'.match_data, e.1 ≤ s.match_data_index) :
    RInv r₀ d (fun k => SE k ∧ ¬ (isEqKey d p ∧ k = keyOf d p))
      (fun k => ST k ∧ ¬ (¬ isEqKey d p ∧ k = keyOf d p)) F s' := by
  have hidxle : idx ≤ r₀.match_data_index := md_key_le r₀ hwf _ idx hf0
  refine ⟨?_, ?_, ?_, ?_, ?_, hinv.fKeyNodup, hinv.fIdxNodup, ?_, ?_, ?_⟩
  · intro k hk
    rw [hh]
    apply hinv.hashU
    intro hSEk
    exact hk ⟨hSEk, fun hc => ho hc.1⟩
  · intro k hk
    rw [hh]
    exact hinv.hashA k hk.1
  · rw [hn]
    exact hinv.nLe
  · rw [ht]
    exact hinv.treeEq
  · intro kv hkv
    obtain ⟨g1, g2, g3, g4, B, gB1, gB2, gB3⟩ := hinv.fProps kv hkv
    have hne : kv.2 ≠ idx := by omega
    refine ⟨⟨g1, ?_⟩, g2, ?_, g4, B, ?_, gB2, gB3⟩
    · intro hc
      rw [hc.2] at g2
      rw [g2] at hf0
      simp at hf0
    · rw [hn]
      exact g3
    · rw [hunt kv.2 hne]
      exact gB1
  · intro k hk i hi
    by_cases hii : i = idx
    · subst hii
      have hkK : k = keyOf d p :=
        tree_payload_inj r₀.tree hwf.2.2.2.2.2.2 k _ i
          (treeFind_some_mem _ _ _ hi) (treeFind_some_mem _ _ _ hf0)
      exact absurd ⟨ho, hkK⟩ hk.2
    · rw [hunt i hii]
      exact hinv.mdA k hk.1 i hi
  · intro i hF hT
    by_cases hii : i = idx
    · rw [hii, hrest]
    · rw [hunt i hii]
      apply hinv.mdU i hF
      intro k hk
      by_cases hkK : k = keyOf d p
      · rw [hkK, hf0]
        intro hc
        exact hii (Option.some.inj hc).symm
      · exact hT k ⟨hk, fun hc => hkK hc.2⟩
  · intro e he
    rw [hn]
    exact hmem e he

/-- One `remove_route` step of the delete phase: a successful removal
drops the path's key from the pending predicates and preserves the
invariant. -/
theorem remove_step (r₀ : RadixRouter) (d : RadixNode) (p : String)
    (SE ST : String → Prop) (F : List (String × Nat)) (s : RadixRouter)
    (hwf : WF r₀) (hfresh : IdFresh r₀ d.id)
    (hinv : RInv r₀ d SE ST F s)
    (hflag : (RadixRouter.remove_route s p d).2 = true) :
    ∃ F', RInv r₀ d
      (fun k => SE k ∧ ¬ (isEqKey d p ∧ k = keyOf d p))
      (fun k => ST k ∧ ¬ (¬ isEqKey d p ∧ k = keyOf d p))
      F' (RadixRouter.remove_route s p d).1 := by
  have hwfc := hwf
  obtain ⟨hwfHne, hwfHs, hwfMne, hwfMs, hwfMb, hwfTc, hwfTn⟩ := hwfc
  by_cases ho : (RadixRouter.process_route p d).path_op = PathOp.Equal
  · rcases hget : alGet s.hash_path (RadixRouter.process_route p d).path
      with _ | routes
    · exfalso
      have hres : (RadixRouter.remove_route s p d).2 = false := by
        simp only [RadixRouter.remove_route]
        rw [if_pos ho]
        simp only [hget]
      rw [hres] at hflag
      simp at hflag
    · have hkeep : routes.filter (fun x => x.id ≠ d.id) =
          (alGet r₀.hash_path (RadixRouter.process_route p d).path).getD [] := by
        by_cases hSE : SE (RadixRouter.process_route p d).path
        · obtain ⟨B, hB1, hB2, hB3⟩ := hinv.hashA _ hSE
          have hrB : routes = B := by
            rw [hget] at hB1
            exact Option.some.inj hB1
          rw [hrB]
          exact hB3
        · have h1 : alGet r₀.hash_path (RadixRouter.process_route p d).path =
              some routes := by
            rw [← hinv.hashU _ hSE]
            exact hget
          rw [h1, Option.getD_some]
          exact bucket_filter_of_fresh routes d.id
            (hfresh.1 _ (alGet_some_mem _ _ _ h1))
      by_cases hkE : (routes.filter (fun x => x.id ≠ d.id)).isEmpty = true
      · -- bucket emptied: drop the key; the base router had no bucket here
        have hkept : routes.filter (fun x => x.id ≠ d.id) = [] :=
          List.isEmpty_iff.mp hkE
        have hr0 : alGet r₀.hash_path (RadixRouter.process_route p d).path
            = none := by
          rcases h0 : alGet r₀.hash_path (RadixRouter.process_route p d).path
            with _ | L
          · rfl
          · exfalso
            apply alGet_bucket_ne_nil _ hwfHne _ L h0
            rw [h0, Option.getD_some] at hkeep
            rw [← hkeep]
            exact hkept
        have hres : RadixRouter.remove_route s p d =
            ({ s with hash_path := alRemove s.hash_path (RadixRouter.process_route p d).path }, true) := by
          simp only [RadixRouter.remove_route]
          rw [if_pos ho]
          simp only [hget, processRoute_id]
          rw [if_pos hkE]
        rw [hres]
        refine ⟨F, remove_hash_inv r₀ d p SE ST F s _ hinv ho rfl rfl rfl ?_ ?_⟩
        · show alGet (alRemove s.hash_path _) (keyOf d p) = _
          simp only [keyOf]
          rw [alGet_alRemove, if_pos rfl]
          exact hr0.symm
        · intro k hkK
          simp only [keyOf] at hkK
          show alGet (alRemove s.hash_path _) _ = _
          rw [alGet_alRemove, if_neg hkK]
      · -- bucket survives: write back exactly the base bucket
        have hr0 : alGet r₀.hash_path (RadixRouter.process_route p d).path =
            some (routes.filter (fun x => x.id ≠ d.id)) := by
          rcases h0 : alGet r₀.hash_path (RadixRouter.process_route p d).path
            with _ | L
          · rw [h0] at hkeep
            simp only [Option.getD_none] at hkeep
            rw [hkeep] at hkE
            simp at hkE
          · rw [h0, Option.getD_some] at hkeep
            rw [hkeep]
        have hres : RadixRouter.remove_route s p d =
            ({ s with hash_path := alSet s.hash_path (RadixRouter.process_route p d).path (routes.filter (fun x => x.id ≠ d.id)) }, true) := by
          simp only [RadixRouter.remove_route]
          rw [if_pos ho]
          simp only [hget, processRoute_id]
          rw [if_neg hkE]
        rw [hres]
        refine ⟨F, remove_hash_inv r₀ d p SE ST F s _ hinv ho rfl rfl rfl ?_ ?_⟩
        · show alGet (alSet s.hash_path _ _) (keyOf d p) = _
          simp only [keyOf]
          rw [alGet_alSet, if_pos rfl]
          exact hr0.symm
        · intro k hkK
          simp only [keyOf] at hkK
          show alGet (alSet s.hash_path _ _) _ = _
          rw [alGet_alSet, if_neg hkK]
  · rcases hf0 : RadixTreeRaw.find r₀.tree (RadixRouter.process_route p d).path
      with _ | i0
    · rcases hfF : RadixTreeRaw.find F (RadixRouter.process_route p d).path
        with _ | j
      · -- key absent from the whole tree: the removal fails
        exfalso
        have hfind : RadixTreeRaw.find s.tree
            (RadixRouter.process_route p d).path = none := by
          rw [hinv.treeEq, treeFind_append, hf0, hfF]
          rfl
        have hres : (RadixRouter.remove_route s p d).2 = false := by
          simp only [RadixRouter.remove_route]
          rw [if_neg ho]
          simp only [hfind]
        rw [hres] at hflag
        simp at hflag
      · -- freshly allocated key: drop the tree entry and its bucket
        have hfind : RadixTreeRaw.find s.tree
            (RadixRouter.process_route p d).path = some j := by
          rw [hinv.treeEq, treeFind_append, hf0, hfF]
          rfl
        have hkvF : ((RadixRouter.process_route p d).path, j) ∈ F :=
          treeFind_some_mem _ _ _ hfF
        obtain ⟨hST0, hfind00, hle0, hgt0, B, hB1, hB2, hB3⟩ :=
          hinv.fProps _ hkvF
        have hgt : r₀.match_data_index < j := hgt0
        have hB1' : alGet s.match_data j = some B := hB1
        have hB3' : B.filter (fun x => x.id ≠ d.id) = [] := hB3
        have hkE : (B.filter (fun x => x.id ≠ d.id)).isEmpty = true := by
          rw [hB3']
          rfl
        have hres : RadixRouter.remove_route s p d =
            ({ s with match_data := alRemove s.match_data j, tree := RadixTreeRaw.remove s.tree (RadixRouter.process_route p d).path }, true) := by
          simp only [RadixRouter.remove_route]
          rw [if_neg ho]
          simp only [hfind, hB1', processRoute_id]
          rw [if_pos hkE]
        rw [hres]
        refine ⟨F.filter (fun kv => kv.1 ≠ (RadixRouter.process_route p d).path),
          ?_, ?_, hinv.nLe, ?_, ?_, ?_, ?_, ?_, ?_, ?_⟩
        · intro k hk
          apply hinv.hashU
          intro hSEk
          exact hk ⟨hSEk, fun hc => ho hc.1⟩
        · intro k hk
          exact hinv.hashA k hk.1
        · show RadixTreeRaw.remove s.tree _ = _
          rw [hinv.treeEq]
          unfold RadixTreeRaw.remove
          rw [List.filter_append]
          congr 1
          apply List.filter_eq_self.mpr
          intro kv hkv
          simpa using (treeFind_eq_none_iff r₀.tree _).mp hf0 kv hkv
        · intro kv hkv
          have hkvF2 := List.mem_filter.mp hkv
          have hkvne : kv.1 ≠ (RadixRouter.process_route p d).path := by
            simpa using hkvF2.2
          obtain ⟨g1, g2, g3, g4, C, gC1, gC2, gC3⟩ := hinv.fProps kv hkvF2.1
          have hne : kv.2 ≠ j := by
            intro hc
            exact hkvne (congrArg Prod.fst
              (List.inj_on_of_nodup_map hinv.fIdxNodup hkvF2.1 hkvF hc))
          refine ⟨⟨g1, fun hc => hkvne hc.2⟩, g2, g3, g4, C, ?_, gC2, gC3⟩
          rw [alGet_alRemove, if_neg hne]
          exact gC1
        · exact hinv.fKeyNodup.sublist ((List.filter_sublist F).map _)
        · exact hinv.fIdxNodup.sublist ((List.filter_sublist F).map _)
        · intro k hk i hi
          have hile : i ≤ r₀.match_data_index := md_key_le r₀ hwf k i hi
          have hne : i ≠ j := by omega
          rw [alGet_alRemove, if_neg hne]
          exact hinv.mdA k hk.1 i hi
        · intro i hF hT
          by_cases hij : i = j
          · subst hij
            rw [alGet_alRemove, if_pos rfl]
            symm
            apply alGet_eq_none_of_absent
            intro e he
            have := hwfMb e he
            omega
          · rw [alGet_alRemove, if_neg hij]
            apply hinv.mdU
            · intro kv hkv
              by_cases hkvK : kv.1 = (RadixRouter.process_route p d).path
              · have hkveq : kv = ((RadixRouter.process_route p d).path, j) :=
                  List.inj_on_of_nodup_map hinv.fKeyNodup hkv hkvF hkvK
                rw [hkveq]
                exact fun hc => hij hc.symm
              · apply hF
                rw [List.mem_filter]
                exact ⟨hkv, by simpa using hkvK⟩
            · intro k hk
              by_cases hkK : k = (RadixRouter.process_route p d).path
              · rw [hkK]
                have h0 : RadixTreeRaw.find r₀.tree
                    (RadixRouter.process_route p d).path = none := hf0
                rw [h0]
                simp
              · exact hT k ⟨hk, fun hc => hkK hc.2⟩
        · intro e he
          exact hinv.mdB e (alRemove_mem _ _ _ he)
    · -- key present in the base tree: the bucket is written back
      have hfind : RadixTreeRaw.find s.tree
          (RadixRouter.process_route p d).path = some i0 := by
        rw [hinv.treeEq, treeFind_append, hf0]
        rfl
      rcases hget : alGet s.match_data i0 with _ | routes
      · exfalso
        have hres : (RadixRouter.remove_route s p d).2 = false := by
          simp only [RadixRouter.remove_route]
          rw [if_neg ho]
          simp only [hfind, hget]
        rw [hres] at hflag
        simp at hflag
      · obtain ⟨L, hL⟩ := Option.isSome_iff_exists.mp
          (hwfTc _ (treeFind_some_mem _ _ _ hf0))
        have hL' : alGet r₀.match_data i0 = some L := hL
        have hkeep : routes.filter (fun x => x.id ≠ d.id) = L := by
          by_cases hSTK : ST (RadixRouter.process_route p d).path
          · obtain ⟨B, hB1, hB2, hB3⟩ := hinv.mdA _ hSTK i0 hf0
            have hrB : routes = B := by
              rw [hget] at hB1
              exact Option.some.inj hB1
            rw [hrB, hB3, hL', Option.getD_some]
          · have hmdU : alGet s.match_data i0 = alGet r₀.match_data i0 := by
              apply hinv.mdU
              · intro kv hkv
                have g4 := (hinv.fProps kv hkv).2.2.2.1
                have hile : i0 ≤ r₀.match_data_index := md_key_le r₀ hwf _ i0 hf0
                omega
              · intro k hk hfk
                have hkK : k = (RadixRouter.process_route p d).path :=
                  tree_payload_inj r₀.tree hwfTn k _ i0
                    (treeFind_some_mem _ _ _ hfk) (treeFind_some_mem _ _ _ hf0)
                rw [hkK] at hk
                exact absurd hk hSTK
            have hroutes : routes = L := by
              rw [hmdU, hL'] at hget
              exact (Option.some.inj hget).symm
            rw [hroutes]
            exact bucket_filter_of_fresh L d.id
              (hfresh.2 _ (alGet_some_mem _ _ _ hL'))
        have hLne : L ≠ [] := alGet_bucket_ne_nil _ hwfMne _ _ hL'
        have hkE : ¬ ((routes.filter (fun x => x.id ≠ d.id)).isEmpty = true) := by
          rw [hkeep]
          simpa using hLne
        have hres : RadixRouter.remove_route s p d =
            ({ s with match_data := alSet s.match_data i0 (routes.filter (fun x => x.id ≠ d.id)) }, true) := by
          simp only [RadixRouter.remove_route]
          rw [if_neg ho]
          simp only [hfind, hget, processRoute_id]
          rw [if_neg hkE]
        rw [hres]
        refine ⟨F, remove_tree_old_inv r₀ d p SE ST F s _ hwf hinv ho i0 hf0
          rfl rfl rfl ?_ ?_ ?_⟩
        · rw [alGet_alSet, if_pos rfl, hkeep, hL']
        · intro i hii
          rw [alGet_alSet, if_neg hii]
        · intro e he
          rcases alSet_mem s.match_data _ _ e he with he2 | he2
          · rw [he2]
            exact le_trans (md_key_le r₀ hwf _ i0 hf0) hinv.nLe
          · exact hinv.mdB e he2

theorem eqKeys_nil (d : RadixNode) (k : String) : ¬ eqKeys d [] k := by
  rintro ⟨p, hp, _⟩
  exact List.not_mem_nil p hp

theorem stKeys_nil (d : RadixNode) (k : String) : ¬ stKeys d [] k := by
  rintro ⟨p, hp, _⟩
  exact List.not_mem_nil p hp

theorem eqKeys_cons (d : RadixNode) (p : String) (ps : List String)
    (k : String) : eqKeys d (p :: ps) k ↔
      (isEqKey d p ∧ k = keyOf d p) ∨ eqKeys d ps k := by
  unfold eqKeys
  exact List.exists_mem_cons_iff _ _ _

theorem stKeys_cons (d : RadixNode) (p : String) (ps : List String)
    (k : String) : stKeys d (p :: ps) k ↔
      (¬ isEqKey d p ∧ k = keyOf d p) ∨ stKeys d ps k := by
  unfold stKeys
  exact List.exists_mem_cons_iff _ _ _

/-- A failed step freezes the add-phase fold. -/
theorem insert_fold_false (d : RadixNode) (ps : List String) (s : RadixRouter) :
    ps.foldl (fun acc path => if acc.2 then RadixRouter.insert_route acc.1 path d else acc) (s, false) = (s, false) := by
  induction ps with
  | nil => rfl
  | cons p ps ih => rw [List.foldl_cons]; exact ih

/-- A failed step freezes the delete-phase fold. -/
theorem remove_fold_false (d : RadixNode) (ps : List String) (s : RadixRouter) :
    ps.foldl (fun acc path => if acc.2 then RadixRouter.remove_route acc.1 path d else acc) (s, false) = (s, false) := by
  induction ps with
  | nil => rfl
  | cons p ps ih => rw [List.foldl_cons]; exact ih

/-- The whole add phase (the fold inside `add_route`): on success the
invariant holds with all keys of the inserted paths pending. -/
theorem insert_fold (r₀ : RadixRouter) (d : RadixNode) (ps : List String)
    (SE ST : String → Prop) (F : List (String × Nat)) (s : RadixRouter)
    (hwf : WF r₀) (hfresh : IdFresh r₀ d.id)
    (hinv : RInv r₀ d SE ST F s)
    (hflag : (ps.foldl (fun acc path => if acc.2 then RadixRouter.insert_route acc.1 path d else acc) (s, true)).2 = true) :
    ∃ F', RInv r₀ d
      (fun k => SE k ∨ eqKeys d ps k)
      (fun k => ST k ∨ stKeys d ps k)
      F' (ps.foldl (fun acc path => if acc.2 then RadixRouter.insert_route acc.1 path d else acc) (s, true)).1 := by
  induction ps generalizing SE ST F s with
  | nil =>
    refine ⟨F, RInv_congr r₀ d SE ST _ _ F s ?_ ?_ hinv⟩
    · intro k
      exact ⟨Or.inl, fun h => h.elim id (fun h2 => absurd h2 (eqKeys_nil d k))⟩
    · intro k
      exact ⟨Or.inl, fun h => h.elim id (fun h2 => absurd h2 (stKeys_nil d k))⟩
  | cons p ps ih =>
    have h1 : (p :: ps).foldl (fun acc path => if acc.2 then RadixRouter.insert_route acc.1 path d else acc) (s, true) =
        ps.foldl (fun acc path => if acc.2 then RadixRouter.insert_route acc.1 path d else acc) (RadixRouter.insert_route s p d) := by
      rw [List.foldl_cons]
      rfl
    rw [h1] at hflag ⊢
    by_cases hb : (RadixRouter.insert_route s p d).2 = true
    · have hx : RadixRouter.insert_route s p d =
          ((RadixRouter.insert_route s p d).1, true) := by
        rw [← hb]
      rw [hx] at hflag ⊢
      obtain ⟨F1, hinv1⟩ := insert_step r₀ d p SE ST F s hwf hfresh hinv hb
      obtain ⟨F2, hinv2⟩ := ih _ _ F1 _ hinv1 hflag
      refine ⟨F2, RInv_congr r₀ d _ _ _ _ F2 _ ?_ ?_ hinv2⟩
      · intro k
        rw [eqKeys_cons]
        tauto
      · intro k
        rw [stKeys_cons]
        tauto
    · exfalso
      have hb' : (RadixRouter.insert_route s p d).2 = false := by
        revert hb
        cases (RadixRouter.insert_route s p d).2 <;> simp
      have hx : RadixRouter.insert_route s p d =
          ((RadixRouter.insert_route s p d).1, false) := by
        rw [← hb']
      rw [hx, insert_fold_false] at hflag
      simp at hflag

/-- The whole delete phase (the fold inside `delete_route`): on success
the invariant holds with the removed paths' keys no longer pending. -/
theorem remove_fold (r₀ : RadixRouter) (d : RadixNode) (ps : List String)
    (SE ST : String → Prop) (F : List (String × Nat)) (s : RadixRouter)
    (hwf : WF r₀) (hfresh : IdFresh r₀ d.id)
    (hinv : RInv r₀ d SE ST F s)
    (hflag : (ps.foldl (fun acc path => if acc.2 then RadixRouter.remove_route acc.1 path d else acc) (s, true)).2 = true) :
    ∃ F', RInv r₀ d
      (fun k => SE k ∧ ¬ eqKeys d ps k)
      (fun k => ST k ∧ ¬ stKeys d ps k)
      F' (ps.foldl (fun acc path => if acc.2 then RadixRouter.remove_route acc.1 path d else acc) (s, true)).1 := by
  induction ps generalizing SE ST F s with
  | nil =>
    refine ⟨F, RInv_congr r₀ d SE ST _ _ F s ?_ ?_ hinv⟩
    · intro k
      exact ⟨fun h => ⟨h, eqKeys_nil d k⟩, And.left⟩
    · intro k
      exact ⟨fun h => ⟨h, stKeys_nil d k⟩, And.left⟩
  | cons p ps ih =>
    have h1 : (p :: ps).foldl (fun acc path => if acc.2 then RadixRouter.remove_route acc.1 path d else acc) (s, true) =
        ps.foldl (fun acc path => if acc.2 then RadixRouter.remove_route acc.1 path d else acc) (RadixRouter.remove_route s p d) := by
      rw [List.foldl_cons]
      rfl
    rw [h1] at hflag ⊢
    by_cases hb : (RadixRouter.remove_route s p d).2 = true
    · have hx : RadixRouter.remove_route s p d =
          ((RadixRouter.remove_route s p d).1, true) := by
        rw [← hb]
      rw [hx] at hflag ⊢
      obtain ⟨F1, hinv1⟩ := remove_step r₀ d p SE ST F s hwf hfresh hinv hb
      obtain ⟨F2, hinv2⟩ := ih _ _ F1 _ hinv1 hflag
      refine ⟨F2, RInv_congr r₀ d _ _ _ _ F2 _ ?_ ?_ hinv2⟩
      · intro k
        rw [eqKeys_cons]
        tauto
      · intro k
        rw [stKeys_cons]
        tauto
    · exfalso
      have hb' : (RadixRouter.remove_route s p d).2 = false := by
        revert hb
        cases (RadixRouter.remove_route s p d).2 <;> simp
      have hx : RadixRouter.remove_route s p d =
          ((RadixRouter.remove_route s p d).1, false) := by
        rw [← hb']
      rw [hx, remove_fold_false] at hflag
      simp at hflag

/-- With nothing pending and no fresh entries left, the state reads back
exactly as the base state on every observation channel. -/
theorem RInv_final (r₀ : RadixRouter) (d : RadixNode)
    (F : List (String × Nat)) (s : RadixRouter)
    (hinv : RInv r₀ d (fun _ => False) (fun _ => False) F s) :
    (∀ k, alGet s.hash_path k = alGet r₀.hash_path k) ∧ s.tree = r₀.tree ∧
    (∀ i, alGet s.match_data i = alGet r₀.match_data i) := by
  have hF : F = [] := by
    rcases hFc : F with _ | ⟨kv, F2⟩
    · rfl
    · rw [hFc] at hinv
      exact ((hinv.fProps kv (List.mem_cons_self kv F2)).1).elim
  subst hF
  refine ⟨fun k => hinv.hashU k (fun h => h), ?_,
    fun i => hinv.mdU i (fun kv hkv => absurd hkv (List.not_mem_nil kv))
      (fun k hk => hk.elim)⟩
  have := hinv.treeEq
  simpa using this

/-- `match_route` observes only the hash buckets, the tree and the
`match_data` buckets. -/
theorem match_route_congr (r₁ r₂ : RadixRouter)
    (hh : ∀ k, alGet r₁.hash_path k = alGet r₂.hash_path k)
    (ht : r₁.tree = r₂.tree)
    (hm : ∀ i, alGet r₁.match_data i = alGet r₂.match_data i)
    (path : String) (opts : RadixMatchOpts) :
    RadixRouter.match_route r₁ path opts =
      RadixRouter.match_route r₂ path opts := by
  unfold RadixRouter.match_route
  rw [hh path, ht]
  have hfn : (fun idx => (alGet r₁.match_data idx).getD []) =
      (fun idx => (alGet r₂.match_data idx).getD []) :=
    funext (fun i => by rw [hm i])
  rw [hfn]

/-- C7 (amended): for every well-formed router state and every descriptor
whose id is registered nowhere in it, if `add_route` succeeds and the
subsequent `delete_route` of the same descriptor also succeeds, the
resulting router is observationally indistinguishable from the original:
every `match_route` query answers exactly as before. -/
theorem c7_add_delete_restores (r : RadixRouter) (d : RadixNode)
    (hwf : WF r) (hfresh : IdFresh r d.id)
    (hadd : (RadixRouter.add_route r d).2 = true)
    (hdel : (RadixRouter.delete_route (RadixRouter.add_route r d).1 d).2 = true)
    (path : String) (opts : RadixMatchOpts) :
    RadixRouter.match_route
        (RadixRouter.delete_route (RadixRouter.add_route r d).1 d).1 path opts =
      RadixRouter.match_route r path opts := by
  have hadd' : (d.paths.foldl (fun acc path => if acc.2 then RadixRouter.insert_route acc.1 path d else acc) (r, true)).2 = true := hadd
  obtain ⟨F1, hinv1⟩ := insert_fold r d d.paths (fun _ => False) (fun _ => False)
    [] r hwf hfresh (RInv_init r d hwf) hadd'
  have hinv2 : RInv r d (eqKeys d d.paths) (stKeys d d.paths) F1
      (RadixRouter.add_route r d).1 := by
    refine RInv_congr r d _ _ _ _ F1 _ ?_ ?_ hinv1
    · intro k
      simp
    · intro k
      simp
  have hdel' : (d.paths.foldl (fun acc path => if acc.2 then RadixRouter.remove_route acc.1 path d else acc) ((RadixRouter.add_route r d).1, true)).2 = true := hdel
  obtain ⟨F2, hinv3⟩ := remove_fold r d d.paths (eqKeys d d.paths)
    (stKeys d d.paths) F1 (RadixRouter.add_route r d).1 hwf hfresh hinv2 hdel'
  have hinv4 : RInv r d (fun _ => False) (fun _ => False) F2
      (RadixRouter.delete_route (RadixRouter.add_route r d).1 d).1 := by
    refine RInv_congr r d _ _ _ _ F2 _ ?_ ?_ hinv3
    · intro k
      simp
    · intro k
      simp
  obtain ⟨hH, hT, hM⟩ := RInv_final r d F2 _ hinv4
  exact match_route_congr _ r hH hT hM path opts

/-- A router holding one route with id "1" at the exact path `/a`. -/
def c7xr : RadixRouter := (RadixRouter.new [plainNode "1" ["/a"] 0 "m"]).1

/-- A different descriptor that reuses the id "1" on the same path. -/
def c7xd : RadixNode := plainNode "1" ["/a"] 5 "x"

/-- C7 as stated is false: deleting a descriptor removes every candidate
with its id, so when the id is already registered, add-then-delete also
removes the pre-existing route and `/a` stops matching. -/
theorem c7_counterexample :
    (RadixRouter.add_route c7xr c7xd).2 = true ∧
    (RadixRouter.delete_route (RadixRouter.add_route c7xr c7xd).1 c7xd).2 = true ∧
    RadixRouter.match_route (RadixRouter.delete_route (RadixRouter.add_route c7xr c7xd).1 c7xd).1 "/a" RadixMatchOpts.default ≠
      RadixRouter.match_route c7xr "/a" RadixMatchOpts.default := by
  refine ⟨by decide, by decide, ?_⟩
  decide

/-- A well-formed base router for the C7 witness. -/
def c7wr : RadixRouter := (RadixRouter.new [plainNode "1" ["/a"] 0 "m"]).1

/-- A fresh-id descriptor touching both the hash index and the tree. -/
def c7wd : RadixNode := plainNode "2" ["/a", "/b/:x"] 3 "n"

/-- Witness for `c7_add_delete_restores` at a concrete router. -/
theorem c7_witness :
    WF c7wr ∧ IdFresh c7wr c7wd.id ∧
    (RadixRouter.add_route c7wr c7wd).2 = true ∧
    (RadixRouter.delete_route (RadixRouter.add_route c7wr c7wd).1 c7wd).2 = true ∧
    RadixRouter.match_route (RadixRouter.delete_route (RadixRouter.add_route c7wr c7wd).1 c7wd).1 "/a" RadixMatchOpts.default =
      RadixRouter.match_route c7wr "/a" RadixMatchOpts.default :=
  ⟨by decide, by decide, by decide, by decide,
    c7_add_delete_restores c7wr c7wd (by decide) (by decide) (by decide)
      (by decide) "/a" RadixMatchOpts.default⟩
